import Mathlib

set_option autoImplicit false

/-!
# Binary layout of the ALSA query records declared in `src/types.h`

The header declares three fixed-layout records and no executable code:
`union snd_pcm_sync_id`, `struct snd_pcm_info` and `struct snd_ctl_card_info`.

The development has two layers.

* The declarations are transcribed as values of `CType`; `sizeof`, `alignof`
  and `layout` compute size, alignment and member offsets by the C rules for a
  target `ABI` (each member at the next multiple of its alignment, the size
  rounded up to the alignment of the aggregate).
* The object representation is a list of bytes (`Nat` below 256).  Members are
  loaded from and stored to the byte range that `layout` assigns to them, with
  the integer byte order given by `Endian`.
-/

namespace Asound

/-! ## Target description -/

/-- Size and alignment, in bytes, of `short` and `int` on the target.
`unsigned char` has size and alignment 1 in every C implementation; a signed
type and its unsigned counterpart share size and alignment. -/
structure ABI where
  short_size : Nat
  short_align : Nat
  int_size : Nat
  int_align : Nat

/-- The data model of every Linux target: 2-byte `short`, 4-byte `int`, each
aligned to its size. -/
def ABI.linux : ABI :=
  { short_size := 2, short_align := 2, int_size := 4, int_align := 4 }

/-- What C requires of a target: sizes are positive and every alignment
divides the size of its type (so that arrays have no holes). -/
def ABI.wellFormed (A : ABI) : Prop :=
  0 < A.short_size ∧ A.short_align ∣ A.short_size ∧
  0 < A.int_size ∧ A.int_align ∣ A.int_size

instance (A : ABI) : Decidable A.wellFormed := by
  unfold ABI.wellFormed; exact inferInstance

/-- Byte order of multi-byte integers in memory. -/
inductive Endian where
  | little
  | big
deriving DecidableEq

/-! ## C types -/

/-- The fragment of C types used by the header. -/
inductive CType where
  | uchar
  | ushort
  | uint
  | int
  | array (elem : CType) (len : Nat)
  | union (members : List (String × CType))
  | struct (members : List (String × CType))

/-- Smallest multiple of `a` that is at least `n`. -/
def roundUp (n a : Nat) : Nat := (n + a - 1) / a * a

mutual
/-- Alignment of a type: that of its element for an array, the largest member
alignment for a struct or union. -/
def alignof (A : ABI) : CType → Nat
  | .uchar => 1
  | .ushort => A.short_align
  | .uint => A.int_align
  | .int => A.int_align
  | .array t _ => alignof A t
  | .union ms => maxAlign A ms
  | .struct ms => maxAlign A ms
/-- Largest alignment among a member list (1 for the empty list). -/
def maxAlign (A : ABI) : List (String × CType) → Nat
  | [] => 1
  | (_, t) :: r => max (alignof A t) (maxAlign A r)
end

mutual
/-- Size of a type in bytes. -/
def sizeof (A : ABI) : CType → Nat
  | .uchar => 1
  | .ushort => A.short_size
  | .uint => A.int_size
  | .int => A.int_size
  | .array t n => n * sizeof A t
  | .union ms => roundUp (maxSize A ms) (maxAlign A ms)
  | .struct ms => roundUp (endOffset A 0 ms) (maxAlign A ms)
/-- Largest member size of a union. -/
def maxSize (A : ABI) : List (String × CType) → Nat
  | [] => 0
  | (_, t) :: r => max (sizeof A t) (maxSize A r)
/-- Offset just past the last member when the members are laid out from
offset `off`, each at the next multiple of its alignment. -/
def endOffset (A : ABI) (off : Nat) : List (String × CType) → Nat
  | [] => off
  | (_, t) :: r => endOffset A (roundUp off (alignof A t) + sizeof A t) r
end

/-- Natural-alignment layout of a member list from offset `off`: for each
member its name, offset and size. -/
def layoutFrom (A : ABI) (off : Nat) : List (String × CType) → List (String × Nat × Nat)
  | [] => []
  | (n, t) :: r =>
    (n, roundUp off (alignof A t), sizeof A t) ::
      layoutFrom A (roundUp off (alignof A t) + sizeof A t) r

/-- Packed layout of a member list from offset `off`: every member directly
after the previous one. -/
def packedFrom (A : ABI) (off : Nat) : List (String × CType) → List (String × Nat × Nat)
  | [] => []
  | (n, t) :: r => (n, off, sizeof A t) :: packedFrom A (off + sizeof A t) r

/-- Members of a struct or union. -/
def CType.members : CType → List (String × CType)
  | .struct ms => ms
  | .union ms => ms
  | _ => []

/-- Member table (name, offset, size) of an aggregate: struct members at their
natural-alignment offsets, union members all at offset 0. -/
def layout (A : ABI) : CType → List (String × Nat × Nat)
  | .struct ms => layoutFrom A 0 ms
  | .union ms => ms.map (fun m => (m.1, 0, sizeof A m.2))
  | _ => []

/-- Member table of the packed layout in declaration order. -/
def packedLayout (A : ABI) (t : CType) : List (String × Nat × Nat) :=
  packedFrom A 0 t.members

/-- Sum of the declared member sizes. -/
def sumSizes (A : ABI) (t : CType) : Nat :=
  (t.members.map (fun m => sizeof A m.2)).sum

/-- Element count and element size of each member: `(len, sizeof elem)` for an
array member, `(1, sizeof t)` otherwise. -/
def memberShapes (A : ABI) (t : CType) : List (String × Nat × Nat) :=
  t.members.map (fun m =>
    match m.2 with
    | .array e n => (m.1, n, sizeof A e)
    | u => (m.1, 1, sizeof A u))

/-- Offset and size of the member called `name` (`(0, 0)` when there is none). -/
def fieldRange (A : ABI) (t : CType) (name : String) : Nat × Nat :=
  ((layout A t).lookup name).getD (0, 0)

/-- The C `offsetof`. -/
def offsetof (A : ABI) (t : CType) (name : String) : Nat :=
  (fieldRange A t name).1

/-- Two byte ranges `(offset, size)` have no byte in common. -/
def rangesDisjoint (r s : Nat × Nat) : Prop :=
  r.1 + r.2 ≤ s.1 ∨ s.1 + s.2 ≤ r.1

instance (r s : Nat × Nat) : Decidable (rangesDisjoint r s) := by
  unfold rangesDisjoint; exact inferInstance

/-- Any two members at different positions of the table occupy disjoint byte
ranges. -/
def pairwiseDisjoint (tbl : List (String × Nat × Nat)) : Prop :=
  ∀ i < tbl.length, ∀ j < tbl.length, i ≠ j →
    rangesDisjoint (tbl.getD i ("", 0, 0)).2 (tbl.getD j ("", 0, 0)).2

instance (tbl : List (String × Nat × Nat)) : Decidable (pairwiseDisjoint tbl) := by
  unfold pairwiseDisjoint; exact inferInstance

/-! ## The declarations of `types.h` -/

/-- Transcription of `union snd_pcm_sync_id`. -/
def snd_pcm_sync_id.ctype : CType :=
  .union [
    ("id", .array .uchar 16),
    ("id16", .array .ushort 8),
    ("id32", .array .uint 4)]

/-- Transcription of `struct snd_pcm_info`. -/
def snd_pcm_info.ctype : CType :=
  .struct [
    ("device", .uint),
    ("subdevice", .uint),
    ("stream", .int),
    ("card", .int),
    ("id", .array .uchar 64),
    ("name", .array .uchar 80),
    ("subname", .array .uchar 32),
    ("dev_class", .int),
    ("dev_subclass", .int),
    ("subdevices_count", .uint),
    ("subdevices_avail", .uint),
    ("sync", snd_pcm_sync_id.ctype),
    ("reserved", .array .uchar 64)]

/-- Transcription of `struct snd_ctl_card_info`. -/
def snd_ctl_card_info.ctype : CType :=
  .struct [
    ("card", .int),
    ("pad", .int),
    ("id", .array .uchar 16),
    ("driver", .array .uchar 16),
    ("name", .array .uchar 32),
    ("longname", .array .uchar 80),
    ("reserved_", .array .uchar 16),
    ("mixername", .array .uchar 80),
    ("components", .array .uchar 128)]

/-! ## Bytes and integers -/

/-- A buffer of exactly `n` bytes. -/
def isBytes (b : List Nat) (n : Nat) : Prop :=
  b.length = n ∧ ∀ x ∈ b, x < 256

instance (b : List Nat) (n : Nat) : Decidable (isBytes b n) := by
  unfold isBytes; exact inferInstance

/-- The `len` bytes of `b` starting at `off`. -/
def slice (b : List Nat) (off len : Nat) : List Nat :=
  (b.drop off).take len

/-- Buffer `b` with the bytes from `off` on replaced by `bs`. -/
def overwrite (b : List Nat) (off : Nat) (bs : List Nat) : List Nat :=
  b.take off ++ bs ++ b.drop (off + bs.length)

/-- The `w` low-order bytes of `v`, least significant first. -/
def leBytes : Nat → Nat → List Nat
  | 0, _ => []
  | w + 1, v => v % 256 :: leBytes w (v / 256)

/-- Number whose base-256 digits are `bs`, least significant first. -/
def leValue : List Nat → Nat
  | [] => 0
  | b :: bs => b + 256 * leValue bs

/-- Object representation of the unsigned `w`-byte integer `v mod 2^(8w)`. -/
def toBytes (E : Endian) (w v : Nat) : List Nat :=
  match E with
  | .little => leBytes w v
  | .big => (leBytes w v).reverse

/-- Unsigned integer represented by the bytes `bs`. -/
def fromBytes (E : Endian) (bs : List Nat) : Nat :=
  match E with
  | .little => leValue bs
  | .big => leValue bs.reverse

/-- Two's-complement reading of the unsigned `w`-byte value `u`. -/
def toSigned (w u : Nat) : Int :=
  if 2 * u < 256 ^ w then (u : Int) else (u : Int) - (256 ^ w : Nat)

/-- Unsigned `w`-byte value with the same two's-complement bits as `z`. -/
def ofSigned (w : Nat) (z : Int) : Nat :=
  (z % ((256 ^ w : Nat) : Int)).toNat

/-- Range of a signed `w`-byte integer. -/
def inSigned (w : Nat) (z : Int) : Prop :=
  -((256 ^ w : Nat) : Int) ≤ 2 * z ∧ 2 * z < ((256 ^ w : Nat) : Int)

instance (w : Nat) (z : Int) : Decidable (inSigned w z) := by
  unfold inSigned; exact inferInstance

/-- Bytes of the member `name` of an aggregate of type `t` stored in `b`. -/
def fieldBytes (A : ABI) (t : CType) (b : List Nat) (name : String) : List Nat :=
  slice b (fieldRange A t name).1 (fieldRange A t name).2

/-- Store the bytes `bs` into the member `name`. -/
def writeField (A : ABI) (t : CType) (b : List Nat) (name : String) (bs : List Nat) :
    List Nat :=
  overwrite b (fieldRange A t name).1 bs

/-- Object representation of an aggregate of type `t` whose members hold the
given bytes: every listed member is stored at its offset into a
zero-initialised buffer of `sizeof t` bytes. -/
def storeFields (A : ABI) (t : CType) (vals : List (String × List Nat)) : List Nat :=
  vals.foldr (fun m b => writeField A t b m.1 m.2) (List.replicate (sizeof A t) 0)

/-- Elements of an array of `n` unsigned `w`-byte integers stored in `b`. -/
def decodeArray (E : Endian) (w : Nat) : Nat → List Nat → List Nat
  | 0, _ => []
  | n + 1, b => fromBytes E (b.take w) :: decodeArray E w n (b.drop w)

/-- Object representation of an array of unsigned `w`-byte integers. -/
def encodeArray (E : Endian) (w : Nat) : List Nat → List Nat
  | [] => []
  | x :: xs => toBytes E w x ++ encodeArray E w xs

/-- A list of `n` values each below `256 ^ w`. -/
def isArray (w n : Nat) (xs : List Nat) : Prop :=
  xs.length = n ∧ ∀ x ∈ xs, x < 256 ^ w

instance (w n : Nat) (xs : List Nat) : Decidable (isArray w n xs) := by
  unfold isArray; exact inferInstance

/-! ## `union snd_pcm_sync_id` -/

/-- The three members of `union snd_pcm_sync_id`. -/
inductive View where
  | id
  | id16
  | id32
deriving DecidableEq

/-- Member name in the declaration. -/
def View.name : View → String
  | .id => "id"
  | .id16 => "id16"
  | .id32 => "id32"

/-- Element type of the member. -/
def View.elem : View → CType
  | .id => .uchar
  | .id16 => .ushort
  | .id32 => .uint

/-- Number of elements of the member. -/
def View.count : View → Nat
  | .id => 16
  | .id16 => 8
  | .id32 => 4

/-- Element size of the member on Linux targets. -/
def View.width (v : View) : Nat := sizeof ABI.linux v.elem

/-- An object of type `union snd_pcm_sync_id`: the storage shared by its
three members. -/
structure snd_pcm_sync_id where
  bytes : List Nat
deriving DecidableEq

/-- Read element `k` of member `v` (`s.id[k]`, `s.id16[k]`, `s.id32[k]`). -/
def snd_pcm_sync_id.get (E : Endian) (v : View) (s : snd_pcm_sync_id) (k : Nat) : Nat :=
  fromBytes E (slice s.bytes (k * v.width) v.width)

/-- The assignment `s.v[k] = x`, with `x` converted to the element type. -/
def snd_pcm_sync_id.set (E : Endian) (v : View) (s : snd_pcm_sync_id) (k x : Nat) :
    snd_pcm_sync_id :=
  ⟨overwrite s.bytes (k * v.width) (toBytes E v.width x)⟩

/-- All elements of member `v`. -/
def snd_pcm_sync_id.view (E : Endian) (v : View) (s : snd_pcm_sync_id) : List Nat :=
  decodeArray E v.width v.count s.bytes

/-- The union object whose member `v` holds the elements `xs`. -/
def snd_pcm_sync_id.ofView (E : Endian) (v : View) (xs : List Nat) : snd_pcm_sync_id :=
  ⟨encodeArray E v.width xs⟩

/-- Decode a buffer as a `union snd_pcm_sync_id`. -/
def snd_pcm_sync_id.decode (b : List Nat) : snd_pcm_sync_id := ⟨b⟩

/-- Object representation of a `union snd_pcm_sync_id`. -/
def snd_pcm_sync_id.encode (s : snd_pcm_sync_id) : List Nat := s.bytes

/-- The storage is 16 bytes. -/
def snd_pcm_sync_id.inRange (s : snd_pcm_sync_id) : Prop := isBytes s.bytes 16

instance (s : snd_pcm_sync_id) : Decidable s.inRange := by
  unfold snd_pcm_sync_id.inRange; exact inferInstance

/-- Combine two adjacent elements into the element of twice the width that
covers them: `first` is the one at the lower address, each is `w` bytes. -/
def joinHalves (E : Endian) (w first second : Nat) : Nat :=
  match E with
  | .little => first + 256 ^ w * second
  | .big => 256 ^ w * first + second

/-! ## `struct snd_pcm_info` -/

/-- A value of `struct snd_pcm_info`. -/
structure snd_pcm_info where
  device : Nat
  subdevice : Nat
  stream : Int
  card : Int
  id : List Nat
  name : List Nat
  subname : List Nat
  dev_class : Int
  dev_subclass : Int
  subdevices_count : Nat
  subdevices_avail : Nat
  sync : snd_pcm_sync_id
  reserved : List Nat
deriving DecidableEq

/-- Every member holds a value of its declared type. -/
def snd_pcm_info.inRange (r : snd_pcm_info) : Prop :=
  r.device < 256 ^ 4 ∧ r.subdevice < 256 ^ 4 ∧
  inSigned 4 r.stream ∧ inSigned 4 r.card ∧
  isBytes r.id 64 ∧ isBytes r.name 80 ∧ isBytes r.subname 32 ∧
  inSigned 4 r.dev_class ∧ inSigned 4 r.dev_subclass ∧
  r.subdevices_count < 256 ^ 4 ∧ r.subdevices_avail < 256 ^ 4 ∧
  r.sync.inRange ∧ isBytes r.reserved 64

instance (r : snd_pcm_info) : Decidable r.inRange := by
  unfold snd_pcm_info.inRange; exact inferInstance

/-- Build the record from the bytes of each member. -/
def snd_pcm_info.ofFields (E : Endian) (f : String → List Nat) : snd_pcm_info :=
  { device := fromBytes E (f "device")
    subdevice := fromBytes E (f "subdevice")
    stream := toSigned 4 (fromBytes E (f "stream"))
    card := toSigned 4 (fromBytes E (f "card"))
    id := f "id"
    name := f "name"
    subname := f "subname"
    dev_class := toSigned 4 (fromBytes E (f "dev_class"))
    dev_subclass := toSigned 4 (fromBytes E (f "dev_subclass"))
    subdevices_count := fromBytes E (f "subdevices_count")
    subdevices_avail := fromBytes E (f "subdevices_avail")
    sync := snd_pcm_sync_id.decode (f "sync")
    reserved := f "reserved" }

/-- Read every member of a `struct snd_pcm_info` from the buffer `b`, each at
its offset in the layout. -/
def snd_pcm_info.decode (E : Endian) (b : List Nat) : snd_pcm_info :=
  snd_pcm_info.ofFields E (fieldBytes ABI.linux snd_pcm_info.ctype b)

/-- Bytes of every member of `r`, in declaration order. -/
def snd_pcm_info.fields (E : Endian) (r : snd_pcm_info) : List (String × List Nat) :=
  [ ("device", toBytes E 4 r.device),
    ("subdevice", toBytes E 4 r.subdevice),
    ("stream", toBytes E 4 (ofSigned 4 r.stream)),
    ("card", toBytes E 4 (ofSigned 4 r.card)),
    ("id", r.id),
    ("name", r.name),
    ("subname", r.subname),
    ("dev_class", toBytes E 4 (ofSigned 4 r.dev_class)),
    ("dev_subclass", toBytes E 4 (ofSigned 4 r.dev_subclass)),
    ("subdevices_count", toBytes E 4 r.subdevices_count),
    ("subdevices_avail", toBytes E 4 r.subdevices_avail),
    ("sync", r.sync.encode),
    ("reserved", r.reserved) ]

/-- Object representation of a `struct snd_pcm_info`: every member stored at
its offset in the layout. -/
def snd_pcm_info.encode (E : Endian) (r : snd_pcm_info) : List Nat :=
  storeFields ABI.linux snd_pcm_info.ctype (r.fields E)

/-- The domain condition `subdevices_avail <= subdevices_count`. -/
def snd_pcm_info.subdevicesOk (r : snd_pcm_info) : Prop :=
  r.subdevices_avail ≤ r.subdevices_count

instance (r : snd_pcm_info) : Decidable r.subdevicesOk := by
  unfold snd_pcm_info.subdevicesOk; exact inferInstance

/-! ## `struct snd_ctl_card_info` -/

/-- A value of `struct snd_ctl_card_info`. -/
structure snd_ctl_card_info where
  card : Int
  pad : Int
  id : List Nat
  driver : List Nat
  name : List Nat
  longname : List Nat
  reserved_ : List Nat
  mixername : List Nat
  components : List Nat
deriving DecidableEq

/-- Every member holds a value of its declared type. -/
def snd_ctl_card_info.inRange (r : snd_ctl_card_info) : Prop :=
  inSigned 4 r.card ∧ inSigned 4 r.pad ∧
  isBytes r.id 16 ∧ isBytes r.driver 16 ∧ isBytes r.name 32 ∧
  isBytes r.longname 80 ∧ isBytes r.reserved_ 16 ∧ isBytes r.mixername 80 ∧
  isBytes r.components 128

instance (r : snd_ctl_card_info) : Decidable r.inRange := by
  unfold snd_ctl_card_info.inRange; exact inferInstance

/-- Build the record from the bytes of each member. -/
def snd_ctl_card_info.ofFields (E : Endian) (f : String → List Nat) : snd_ctl_card_info :=
  { card := toSigned 4 (fromBytes E (f "card"))
    pad := toSigned 4 (fromBytes E (f "pad"))
    id := f "id"
    driver := f "driver"
    name := f "name"
    longname := f "longname"
    reserved_ := f "reserved_"
    mixername := f "mixername"
    components := f "components" }

/-- Read every member of a `struct snd_ctl_card_info` from the buffer `b`. -/
def snd_ctl_card_info.decode (E : Endian) (b : List Nat) : snd_ctl_card_info :=
  snd_ctl_card_info.ofFields E (fieldBytes ABI.linux snd_ctl_card_info.ctype b)

/-- Bytes of every member of `r`, in declaration order. -/
def snd_ctl_card_info.fields (E : Endian) (r : snd_ctl_card_info) :
    List (String × List Nat) :=
  [ ("card", toBytes E 4 (ofSigned 4 r.card)),
    ("pad", toBytes E 4 (ofSigned 4 r.pad)),
    ("id", r.id),
    ("driver", r.driver),
    ("name", r.name),
    ("longname", r.longname),
    ("reserved_", r.reserved_),
    ("mixername", r.mixername),
    ("components", r.components) ]

/-- Object representation of a `struct snd_ctl_card_info`: every member stored
at its offset in the layout. -/
def snd_ctl_card_info.encode (E : Endian) (r : snd_ctl_card_info) : List Nat :=
  storeFields ABI.linux snd_ctl_card_info.ctype (r.fields E)

/-! ## Proofs -/

set_option maxRecDepth 8000

/-! ### Slices and overwrites -/

theorem getElem?_slice (b : List Nat) (off n i : Nat) :
    (slice b off n)[i]? = if i < n then b[off + i]? else none := by
  simp [slice, List.getElem?_take, List.getElem?_drop]

theorem getElem?_overwrite (b : List Nat) (off : Nat) (bs : List Nat) (i : Nat)
    (h : off ≤ b.length) :
    (overwrite b off bs)[i]? =
      if i < off then b[i]? else if i < off + bs.length then bs[i - off]? else b[i]? := by
  have hl : (List.take off b).length = off := by simp [List.length_take]; omega
  unfold overwrite
  by_cases h1 : i < off
  · rw [if_pos h1, List.append_assoc, List.getElem?_append_left (by omega),
      List.getElem?_take_of_lt h1]
  · rw [if_neg h1, List.append_assoc, List.getElem?_append_right (by omega), hl]
    by_cases h2 : i < off + bs.length
    · rw [if_pos h2, List.getElem?_append_left (by omega)]
    · rw [if_neg h2, List.getElem?_append_right (by omega), List.getElem?_drop]
      congr 1
      omega

theorem length_slice (b : List Nat) (off n : Nat) (h : off + n ≤ b.length) :
    (slice b off n).length = n := by
  simp [slice, List.length_take, List.length_drop]; omega

theorem length_overwrite (b : List Nat) (off : Nat) (bs : List Nat)
    (h : off + bs.length ≤ b.length) : (overwrite b off bs).length = b.length := by
  simp [overwrite, List.length_take, List.length_drop]; omega

theorem slice_overwrite_same (b : List Nat) (off : Nat) (bs : List Nat)
    (h : off + bs.length ≤ b.length) : slice (overwrite b off bs) off bs.length = bs := by
  apply List.ext_getElem?
  intro i
  rw [getElem?_slice, getElem?_overwrite b off bs _ (by omega)]
  by_cases hi : i < bs.length
  · rw [if_pos hi, if_neg (by omega), if_pos (by omega)]
    congr 1
    omega
  · rw [if_neg hi, List.getElem?_eq_none (by omega)]

theorem slice_overwrite_disjoint (b : List Nat) (off : Nat) (bs : List Nat) (o n : Nat)
    (h : off + bs.length ≤ b.length) (hd : o + n ≤ off ∨ off + bs.length ≤ o) :
    slice (overwrite b off bs) o n = slice b o n := by
  apply List.ext_getElem?
  intro i
  rw [getElem?_slice, getElem?_slice, getElem?_overwrite b off bs _ (by omega)]
  by_cases hi : i < n
  · rw [if_pos hi, if_pos hi]
    rcases hd with hd | hd
    · rw [if_pos (by omega)]
    · rw [if_neg (by omega), if_neg (by omega)]
  · rw [if_neg hi, if_neg hi]

theorem slice_full (b : List Nat) : slice b 0 b.length = b := by
  simp [slice]

theorem slice_append (b : List Nat) (off n m : Nat) :
    slice b off n ++ slice b (off + n) m = slice b off (n + m) := by
  unfold slice
  rw [List.take_add, List.drop_drop]

theorem mem_slice {b : List Nat} {off n x : Nat} (h : x ∈ slice b off n) : x ∈ b :=
  List.mem_of_mem_drop (List.mem_of_mem_take h)

theorem isBytes_slice (b : List Nat) (m off n : Nat) (hb : isBytes b m) (h : off + n ≤ m) :
    isBytes (slice b off n) n :=
  ⟨length_slice b off n (by rw [hb.1]; exact h), fun x hx => hb.2 x (mem_slice hx)⟩

theorem mem_overwrite {b : List Nat} {off : Nat} {bs : List Nat} {x : Nat}
    (h : x ∈ overwrite b off bs) : x ∈ b ∨ x ∈ bs := by
  unfold overwrite at h
  rcases List.mem_append.1 h with h | h
  · rcases List.mem_append.1 h with h | h
    · exact Or.inl (List.mem_of_mem_take h)
    · exact Or.inr h
  · exact Or.inl (List.mem_of_mem_drop h)

theorem isBytes_overwrite (b : List Nat) (m off : Nat) (bs : List Nat) (hb : isBytes b m)
    (hbs : ∀ x ∈ bs, x < 256) (h : off + bs.length ≤ m) :
    isBytes (overwrite b off bs) m := by
  refine ⟨by rw [length_overwrite b off bs (by rw [hb.1]; exact h), hb.1], fun x hx => ?_⟩
  rcases mem_overwrite hx with h | h
  · exact hb.2 x h
  · exact hbs x h

/-! ### Integers and bytes -/

theorem length_leBytes (w v : Nat) : (leBytes w v).length = w := by
  induction w generalizing v with
  | zero => rfl
  | succ w ih => simp [leBytes, ih]

theorem leBytes_lt (w v : Nat) : ∀ x ∈ leBytes w v, x < 256 := by
  induction w generalizing v with
  | zero => intro x hx; simp [leBytes] at hx
  | succ w ih =>
    intro x hx
    simp only [leBytes, List.mem_cons] at hx
    rcases hx with rfl | hx
    · exact Nat.mod_lt _ (by norm_num)
    · exact ih _ x hx

theorem leValue_leBytes (w v : Nat) : leValue (leBytes w v) = v % 256 ^ w := by
  induction w generalizing v with
  | zero => simp [leBytes, leValue, Nat.mod_one]
  | succ w ih =>
    simp only [leBytes, leValue, ih]
    rw [pow_succ, mul_comm (256 ^ w) 256, Nat.mod_mul]

theorem leBytes_leValue (bs : List Nat) (h : ∀ x ∈ bs, x < 256) :
    leBytes bs.length (leValue bs) = bs := by
  induction bs with
  | nil => rfl
  | cons b bs ih =>
    have hb : b < 256 := h b (List.mem_cons_self _ _)
    have ih2 := ih (fun x hx => h x (List.mem_cons_of_mem _ hx))
    simp only [List.length_cons, leBytes, leValue]
    have h1 : (b + 256 * leValue bs) % 256 = b := by omega
    have h2 : (b + 256 * leValue bs) / 256 = leValue bs := by omega
    rw [h1, h2, ih2]

theorem leValue_lt (bs : List Nat) (h : ∀ x ∈ bs, x < 256) :
    leValue bs < 256 ^ bs.length := by
  induction bs with
  | nil => simp [leValue]
  | cons b bs ih =>
    have hb : b < 256 := h b (List.mem_cons_self _ _)
    have ih2 := ih (fun x hx => h x (List.mem_cons_of_mem _ hx))
    simp only [List.length_cons, leValue, pow_succ]
    omega

theorem leValue_append (xs ys : List Nat) :
    leValue (xs ++ ys) = leValue xs + 256 ^ xs.length * leValue ys := by
  induction xs with
  | nil => simp [leValue]
  | cons x xs ih =>
    rw [List.cons_append]
    simp only [leValue, List.length_cons, pow_succ]
    rw [ih]
    ring

theorem length_toBytes (E : Endian) (w v : Nat) : (toBytes E w v).length = w := by
  cases E <;> simp [toBytes, length_leBytes]

theorem toBytes_lt (E : Endian) (w v : Nat) : ∀ x ∈ toBytes E w v, x < 256 := by
  intro x hx
  cases E
  · exact leBytes_lt w v x hx
  · exact leBytes_lt w v x (by simpa [toBytes] using hx)

theorem fromBytes_toBytes (E : Endian) (w v : Nat) :
    fromBytes E (toBytes E w v) = v % 256 ^ w := by
  cases E <;> simp [fromBytes, toBytes, leValue_leBytes]

theorem toBytes_fromBytes (E : Endian) (bs : List Nat) (w : Nat) (h : isBytes bs w) :
    toBytes E w (fromBytes E bs) = bs := by
  obtain ⟨hl, hb⟩ := h
  subst hl
  cases E
  · exact leBytes_leValue bs hb
  · have h := leBytes_leValue bs.reverse (fun x hx => hb x (by simpa using hx))
    simp only [List.length_reverse] at h
    simp [toBytes, fromBytes, h]

theorem fromBytes_lt (E : Endian) (bs : List Nat) (w : Nat) (h : isBytes bs w) :
    fromBytes E bs < 256 ^ w := by
  obtain ⟨hl, hb⟩ := h
  subst hl
  cases E
  · exact leValue_lt bs hb
  · have h := leValue_lt bs.reverse (fun x hx => hb x (by simpa using hx))
    simpa [fromBytes] using h

theorem toSigned_ofSigned (z : Int) (h : inSigned 4 z) : toSigned 4 (ofSigned 4 z) = z := by
  unfold inSigned at h
  unfold toSigned ofSigned
  norm_num at h ⊢
  split_ifs <;> omega

theorem ofSigned_toSigned (u : Nat) (h : u < 256 ^ 4) : ofSigned 4 (toSigned 4 u) = u := by
  unfold toSigned ofSigned
  norm_num at h ⊢
  split_ifs <;> omega

theorem inSigned_toSigned (u : Nat) (h : u < 256 ^ 4) : inSigned 4 (toSigned 4 u) := by
  unfold toSigned inSigned
  norm_num at h ⊢
  split_ifs <;> omega

theorem ofSigned_lt (z : Int) : ofSigned 4 z < 256 ^ 4 := by
  unfold ofSigned
  norm_num
  omega

theorem le_roundUp (n a : Nat) (ha : 0 < a) : n ≤ roundUp n a := by
  unfold roundUp
  have h := Nat.lt_div_mul_add (a := n + a - 1) ha
  omega

theorem ABI.align_cases (A : ABI) (hw : A.wellFormed) (hs : A.short_size ≤ 2)
    (hi : A.int_size = 4) :
    (A.short_size = 1 ∧ A.short_align = 1 ∨ A.short_size = 2 ∧ A.short_align = 1 ∨
      A.short_size = 2 ∧ A.short_align = 2) ∧
    (A.int_align = 1 ∨ A.int_align = 2 ∨ A.int_align = 4) := by
  obtain ⟨h1, h2, h3, h4⟩ := hw
  have hsa := Nat.le_of_dvd h1 h2
  have hia := Nat.le_of_dvd h3 h4
  rw [hi] at h4 hia
  have hss : A.short_size = 1 ∨ A.short_size = 2 := by omega
  constructor
  · rcases hss with h | h
    · rw [h] at h2 hsa
      left; refine ⟨h, ?_⟩
      interval_cases A.short_align <;> simp_all
    · rw [h] at h2 hsa
      right
      interval_cases hx : A.short_align <;> simp_all
  · interval_cases hx : A.int_align <;> omega

theorem sync_sizeof_short (A : ABI) (hw : A.wellFormed)
    (hu : sizeof A snd_pcm_sync_id.ctype = 16) : A.short_size ≤ 2 := by
  obtain ⟨h1, h2, h3, h4⟩ := hw
  have hpos : 0 < maxAlign A snd_pcm_sync_id.ctype.members := by
    simp [snd_pcm_sync_id.ctype, CType.members, maxAlign]
  have h := le_roundUp (maxSize A snd_pcm_sync_id.ctype.members)
    (maxAlign A snd_pcm_sync_id.ctype.members) hpos
  simp [snd_pcm_sync_id.ctype, sizeof, CType.members] at hu h
  simp [maxSize, sizeof] at h hu
  omega

/-- Claim C1: on a target with 2-byte `short` and 4-byte `int`,
`union snd_pcm_sync_id` is 16 bytes.  Its members are `id` (16 elements of 1
byte), `id16` (8 elements of 2 bytes) and `id32` (4 elements of 4 bytes); each
starts at offset 0 and is 16 bytes, the size of the union. -/
theorem sync_id_sizeof (A : ABI) (hw : A.wellFormed) (hs : A.short_size = 2)
    (hi : A.int_size = 4) :
    sizeof A snd_pcm_sync_id.ctype = 16 ∧
    snd_pcm_sync_id.ctype =
      .union ([View.id, View.id16, View.id32].map
        (fun v => (v.name, CType.array v.elem v.count))) ∧
    memberShapes A snd_pcm_sync_id.ctype = [("id", 16, 1), ("id16", 8, 2), ("id32", 4, 4)] ∧
    layout A snd_pcm_sync_id.ctype = [("id", 0, 16), ("id16", 0, 16), ("id32", 0, 16)] ∧
    (∀ v : View, sizeof A (.array v.elem v.count) = sizeof A snd_pcm_sync_id.ctype) := by
  obtain ⟨hS, hI⟩ := A.align_cases hw (by omega) hi
  obtain ⟨ss, sa, is, ia⟩ := A
  simp only at hS hI hs hi
  subst hs hi
  have hS2 : sa = 1 ∨ sa = 2 := by omega
  refine ⟨?_, rfl, ?_, ?_, ?_⟩
  · rcases hS2 with rfl | rfl <;> rcases hI with rfl | rfl | rfl <;> decide
  · rcases hS2 with rfl | rfl <;> rcases hI with rfl | rfl | rfl <;> decide
  · rcases hS2 with rfl | rfl <;> rcases hI with rfl | rfl | rfl <;> decide
  · intro v
    rcases hS2 with rfl | rfl <;> rcases hI with rfl | rfl | rfl <;> cases v <;> decide

theorem sync_id_sizeof_witness :
    ABI.linux.wellFormed ∧ ABI.linux.short_size = 2 ∧ ABI.linux.int_size = 4 ∧
      sizeof ABI.linux snd_pcm_sync_id.ctype = 16 :=
  ⟨by decide, rfl, rfl, (sync_id_sizeof ABI.linux (by decide) rfl rfl).1⟩

/-- Claim C2: with 4-byte `int` and a 16-byte `union snd_pcm_sync_id`,
`struct snd_pcm_info` is 288 bytes, the sum of its thirteen member sizes
4+4+4+4+64+80+32+4+4+4+4+16+64; the natural layout is the packed one (no
padding), and `reserved` is the last member, at offset 224 with 64 bytes, ending
at the end of the struct. -/
theorem pcm_info_sizeof (A : ABI) (hw : A.wellFormed) (hi : A.int_size = 4)
    (hu : sizeof A snd_pcm_sync_id.ctype = 16) :
    sizeof A snd_pcm_info.ctype = 288 ∧
    snd_pcm_info.ctype.members.map (fun m => sizeof A m.2) =
      [4, 4, 4, 4, 64, 80, 32, 4, 4, 4, 4, 16, 64] ∧
    sumSizes A snd_pcm_info.ctype = 288 ∧
    layout A snd_pcm_info.ctype = packedLayout A snd_pcm_info.ctype ∧
    (layout A snd_pcm_info.ctype).getLast? = some ("reserved", 224, 64) ∧
    offsetof A snd_pcm_info.ctype "reserved" + 64 = sizeof A snd_pcm_info.ctype := by
  obtain ⟨hS, hI⟩ := A.align_cases hw (sync_sizeof_short A hw hu) hi
  obtain ⟨ss, sa, is, ia⟩ := A
  simp only at hS hI hi
  subst hi
  rcases hS with ⟨rfl, rfl⟩ | ⟨rfl, rfl⟩ | ⟨rfl, rfl⟩ <;> rcases hI with rfl | rfl | rfl <;>
    decide

theorem pcm_info_sizeof_witness :
    ABI.linux.wellFormed ∧ ABI.linux.int_size = 4 ∧
      sizeof ABI.linux snd_pcm_sync_id.ctype = 16 ∧
      sizeof ABI.linux snd_pcm_info.ctype = 288 :=
  ⟨by decide, rfl, by decide, (pcm_info_sizeof ABI.linux (by decide) rfl (by decide)).1⟩

/-- Claim C3: with 4-byte `int`, `struct snd_ctl_card_info` is 376 bytes, the
sum of its nine member sizes 4+4+16+16+32+80+16+80+128; the natural layout is
the packed one (no padding), and `components` is the last member, at offset 248
with 128 bytes, ending at the end of the struct. -/
theorem card_info_sizeof (A : ABI) (hw : A.wellFormed) (hi : A.int_size = 4) :
    sizeof A snd_ctl_card_info.ctype = 376 ∧
    snd_ctl_card_info.ctype.members.map (fun m => sizeof A m.2) =
      [4, 4, 16, 16, 32, 80, 16, 80, 128] ∧
    sumSizes A snd_ctl_card_info.ctype = 376 ∧
    layout A snd_ctl_card_info.ctype = packedLayout A snd_ctl_card_info.ctype ∧
    (layout A snd_ctl_card_info.ctype).getLast? = some ("components", 248, 128) ∧
    offsetof A snd_ctl_card_info.ctype "components" + 128 =
      sizeof A snd_ctl_card_info.ctype := by
  obtain ⟨h1, h2, h3, h4⟩ := hw
  have hia := Nat.le_of_dvd h3 h4
  obtain ⟨ss, sa, is, ia⟩ := A
  simp only at hi h4 hia
  subst hi
  have hI : ia = 1 ∨ ia = 2 ∨ ia = 4 := by
    interval_cases ia <;> omega
  rcases hI with rfl | rfl | rfl <;>
    simp [snd_ctl_card_info.ctype, sizeof, endOffset, alignof, maxAlign, roundUp, sumSizes,
      CType.members, layout, layoutFrom, packedLayout, packedFrom, offsetof, fieldRange,
      List.lookup]

theorem card_info_sizeof_witness :
    ABI.linux.wellFormed ∧ ABI.linux.int_size = 4 ∧
      sizeof ABI.linux snd_ctl_card_info.ctype = 376 :=
  ⟨by decide, rfl, (card_info_sizeof ABI.linux (by decide) rfl).1⟩

/-- Claim C7: with alignment 1 for `unsigned char` arrays and 4 for `int` and
`unsigned int` (hence 4 for the union and for both structs), the
natural-alignment layout of `struct snd_pcm_info` and of
`struct snd_ctl_card_info` is the packed layout in declaration order, with the
listed offsets, and the size of each struct is the sum of its member sizes. -/
theorem natural_layout_is_packed (A : ABI) (hs : A.short_size = 2) (hsa : A.short_align = 2)
    (hi : A.int_size = 4) (hia : A.int_align = 4) :
    (∀ n, alignof A (.array .uchar n) = 1) ∧
    alignof A .int = 4 ∧ alignof A .uint = 4 ∧
    alignof A snd_pcm_sync_id.ctype = 4 ∧
    alignof A snd_pcm_info.ctype = 4 ∧ alignof A snd_ctl_card_info.ctype = 4 ∧
    layout A snd_pcm_info.ctype = packedLayout A snd_pcm_info.ctype ∧
    layout A snd_pcm_info.ctype =
      [("device", 0, 4), ("subdevice", 4, 4), ("stream", 8, 4), ("card", 12, 4),
       ("id", 16, 64), ("name", 80, 80), ("subname", 160, 32), ("dev_class", 192, 4),
       ("dev_subclass", 196, 4), ("subdevices_count", 200, 4),
       ("subdevices_avail", 204, 4), ("sync", 208, 16), ("reserved", 224, 64)] ∧
    sizeof A snd_pcm_info.ctype = sumSizes A snd_pcm_info.ctype ∧
    layout A snd_ctl_card_info.ctype = packedLayout A snd_ctl_card_info.ctype ∧
    layout A snd_ctl_card_info.ctype =
      [("card", 0, 4), ("pad", 4, 4), ("id", 8, 16), ("driver", 24, 16), ("name", 40, 32),
       ("longname", 72, 80), ("reserved_", 152, 16), ("mixername", 168, 80),
       ("components", 248, 128)] ∧
    sizeof A snd_ctl_card_info.ctype = sumSizes A snd_ctl_card_info.ctype := by
  obtain ⟨ss, sa, is, ia⟩ := A
  simp only at hs hsa hi hia
  subst hs hsa hi hia
  refine ⟨fun n => rfl, ?_⟩
  decide

theorem natural_layout_is_packed_witness :
    ABI.linux.short_size = 2 ∧ ABI.linux.short_align = 2 ∧
    ABI.linux.int_size = 4 ∧ ABI.linux.int_align = 4 ∧
    layout ABI.linux snd_pcm_info.ctype = packedLayout ABI.linux snd_pcm_info.ctype ∧
    layout ABI.linux snd_ctl_card_info.ctype = packedLayout ABI.linux snd_ctl_card_info.ctype :=
  ⟨rfl, rfl, rfl, rfl,
   (natural_layout_is_packed ABI.linux rfl rfl rfl rfl).2.2.2.2.2.2.1,
   (natural_layout_is_packed ABI.linux rfl rfl rfl rfl).2.2.2.2.2.2.2.2.2.1⟩

/-! ### The views of `union snd_pcm_sync_id` -/

theorem View.count_mul_width (v : View) : v.count * v.width = 16 := by
  cases v <;> rfl

theorem View.elem_range (v : View) (k : Nat) (hk : k < v.count) :
    k * v.width + v.width ≤ 16 := by
  have h := v.count_mul_width
  have h2 : (k + 1) * v.width ≤ v.count * v.width := Nat.mul_le_mul_right _ hk
  rw [Nat.add_mul, Nat.one_mul] at h2
  omega

theorem fromBytes_singleton (E : Endian) (a : Nat) : fromBytes E [a] = a := by
  cases E <;> simp [fromBytes, leValue]

theorem fromBytes_append (E : Endian) (xs ys : List Nat) (w : Nat) (hx : xs.length = w)
    (hy : ys.length = w) :
    fromBytes E (xs ++ ys) = joinHalves E w (fromBytes E xs) (fromBytes E ys) := by
  cases E
  · simp [fromBytes, joinHalves, leValue_append, hx]
  · simp [fromBytes, joinHalves, leValue_append, hy]
    ring

theorem slice_slice (b : List Nat) (o n p m : Nat) (h : p + m ≤ n) :
    slice (slice b o n) p m = slice b (o + p) m := by
  apply List.ext_getElem?
  intro i
  rw [getElem?_slice, getElem?_slice, getElem?_slice]
  by_cases hi : i < m
  · rw [if_pos hi, if_pos hi, if_pos (by omega), Nat.add_assoc]
  · rw [if_neg hi, if_neg hi]

theorem slice_one (b : List Nat) (m : Nat) (h : m < b.length) :
    slice b m 1 = [b.getD m 0] := by
  apply List.ext_getElem?
  intro i
  rw [getElem?_slice, List.getD_eq_getElem?_getD]
  rcases i with _ | i
  · simp [List.getElem?_eq_getElem h]
  · simp

theorem snd_pcm_sync_id.get_id (E : Endian) (s : snd_pcm_sync_id) (i : Nat)
    (h : i < s.bytes.length) : s.get E .id i = s.bytes.getD i 0 := by
  have hw : View.width .id = 1 := rfl
  unfold snd_pcm_sync_id.get
  rw [hw, Nat.mul_one, slice_one _ _ h, fromBytes_singleton]

theorem snd_pcm_sync_id.map_get_id (E : Endian) (s : snd_pcm_sync_id) (o n : Nat)
    (h : o + n ≤ s.bytes.length) :
    (List.range n).map (fun i => s.get E .id (o + i)) = slice s.bytes o n := by
  apply List.ext_getElem?
  intro i
  rw [getElem?_slice]
  by_cases hi : i < n
  · rw [if_pos hi, List.getElem?_map, List.getElem?_range hi, Option.map_some',
      s.get_id E _ (by omega), List.getD_eq_getElem?_getD,
      List.getElem?_eq_getElem (show o + i < s.bytes.length by omega)]
    rfl
  · rw [if_neg hi, List.getElem?_eq_none (by simp; omega)]

theorem snd_pcm_sync_id.set_inRange (E : Endian) (v : View) (s : snd_pcm_sync_id) (k x : Nat)
    (hs : s.inRange) (hk : k < v.count) : (s.set E v k x).inRange := by
  unfold snd_pcm_sync_id.inRange snd_pcm_sync_id.set
  exact isBytes_overwrite _ _ _ _ hs (toBytes_lt E _ _)
    (by rw [length_toBytes]; exact v.elem_range k hk)

theorem snd_pcm_sync_id.slice_set (E : Endian) (v : View) (s : snd_pcm_sync_id) (k x : Nat)
    (hs : s.inRange) (hk : k < v.count) :
    slice (s.set E v k x).bytes (k * v.width) v.width = toBytes E v.width x := by
  have h := slice_overwrite_same s.bytes (k * v.width) (toBytes E v.width x)
    (by rw [length_toBytes, hs.1]; exact v.elem_range k hk)
  rw [length_toBytes] at h
  exact h

theorem snd_pcm_sync_id.get_set_same (E : Endian) (v : View) (s : snd_pcm_sync_id) (k x : Nat)
    (hs : s.inRange) (hk : k < v.count) :
    (s.set E v k x).get E v k = x % 256 ^ v.width := by
  unfold snd_pcm_sync_id.get
  rw [s.slice_set E v k x hs hk, fromBytes_toBytes]

theorem snd_pcm_sync_id.get_set_disjoint (E : Endian) (v u : View) (s : snd_pcm_sync_id)
    (k x j : Nat) (hs : s.inRange) (hk : k < v.count)
    (hd : rangesDisjoint (k * v.width, v.width) (j * u.width, u.width)) :
    (s.set E v k x).get E u j = s.get E u j := by
  unfold snd_pcm_sync_id.get snd_pcm_sync_id.set
  have hr := v.elem_range k hk
  rw [slice_overwrite_disjoint _ _ _ _ _ (by rw [length_toBytes, hs.1]; exact hr)
    (by rw [length_toBytes]; unfold rangesDisjoint at hd; simp only at hd; omega)]

theorem snd_pcm_sync_id.id16_eq_join (E : Endian) (s : snd_pcm_sync_id) (k : Nat)
    (hs : s.inRange) (hk : k < 8) :
    s.get E .id16 k = joinHalves E 1 (s.get E .id (2 * k)) (s.get E .id (2 * k + 1)) := by
  have h1 : View.width .id = 1 := rfl
  have h2 : View.width .id16 = 2 := rfl
  have hl := hs.1
  unfold snd_pcm_sync_id.get
  rw [h1, h2, Nat.mul_one, Nat.mul_one, Nat.mul_comm k 2,
    ← fromBytes_append E _ _ 1 (length_slice _ _ _ (by omega)) (length_slice _ _ _ (by omega)),
    slice_append]

theorem snd_pcm_sync_id.id32_eq_join (E : Endian) (s : snd_pcm_sync_id) (j : Nat)
    (hs : s.inRange) (hj : j < 4) :
    s.get E .id32 j = joinHalves E 2 (s.get E .id16 (2 * j)) (s.get E .id16 (2 * j + 1)) := by
  have h2 : View.width .id16 = 2 := rfl
  have h4 : View.width .id32 = 4 := rfl
  have hl := hs.1
  unfold snd_pcm_sync_id.get
  have e1 : 2 * j * 2 = j * 4 := by omega
  have e2 : (2 * j + 1) * 2 = j * 4 + 2 := by omega
  rw [h2, h4, e1, e2,
    ← fromBytes_append E _ _ 2 (length_slice _ _ _ (by omega)) (length_slice _ _ _ (by omega)),
    slice_append]

theorem toBytes_four (E : Endian) (x : Nat) :
    toBytes E 4 x =
      match E with
      | .little => [x % 256, x / 256 % 256, x / 65536 % 256, x / 16777216 % 256]
      | .big => [x / 16777216 % 256, x / 65536 % 256, x / 256 % 256, x % 256] := by
  cases E <;> simp [toBytes, leBytes, Nat.div_div_eq_div_mul]

theorem toBytes_two (E : Endian) (x : Nat) :
    toBytes E 2 x =
      match E with
      | .little => [x % 256, x / 256 % 256]
      | .big => [x / 256 % 256, x % 256] := by
  cases E <;> simp [toBytes, leBytes]

theorem snd_pcm_sync_id.id16_of_set_id32 (E : Endian) (s : snd_pcm_sync_id) (j x : Nat)
    (hs : s.inRange) (hj : j < 4) :
    (s.set E .id32 j x).get E .id16 (2 * j) =
        (match E with
         | .little => x % 65536
         | .big => x / 65536 % 65536) ∧
    (s.set E .id32 j x).get E .id16 (2 * j + 1) =
        (match E with
         | .little => x / 65536 % 65536
         | .big => x % 65536) := by
  have h2 : View.width .id16 = 2 := rfl
  have h4 : View.width .id32 = 4 := rfl
  have hsl := s.slice_set E .id32 j x hs hj
  rw [h4] at hsl
  have e1 : 2 * j * 2 = j * 4 + 0 := by omega
  have e2 : (2 * j + 1) * 2 = j * 4 + 2 := by omega
  unfold snd_pcm_sync_id.get
  rw [h2, e1, e2, ← slice_slice _ (j * 4) 4 0 2 (by omega),
    ← slice_slice _ (j * 4) 4 2 2 (by omega), hsl, toBytes_four]
  cases E <;> simp [slice, fromBytes, leValue] <;> omega

theorem getD_overwrite_outside (b : List Nat) (off : Nat) (bs : List Nat) (i : Nat)
    (h : off + bs.length ≤ b.length) (hi : i < off ∨ off + bs.length ≤ i) :
    (overwrite b off bs).getD i 0 = b.getD i 0 := by
  rw [List.getD_eq_getElem?_getD, List.getD_eq_getElem?_getD,
    getElem?_overwrite b off bs i (by omega)]
  rcases hi with hi | hi
  · rw [if_pos hi]
  · rw [if_neg (by omega), if_neg (by omega)]

/-! ### Arrays of integers -/

theorem decodeArray_encodeArray (E : Endian) (w n : Nat) (xs : List Nat)
    (h : isArray w n xs) : decodeArray E w n (encodeArray E w xs) = xs := by
  induction xs generalizing n with
  | nil =>
    obtain ⟨hl, _⟩ := h
    simp at hl
    subst hl
    rfl
  | cons x xs ih =>
    obtain ⟨hl, hx⟩ := h
    simp at hl
    subst hl
    have hx0 : x < 256 ^ w := hx x (List.mem_cons_self _ _)
    have ih2 := ih xs.length ⟨rfl, fun y hy => hx y (List.mem_cons_of_mem _ hy)⟩
    have hlen := length_toBytes E w x
    simp only [encodeArray, decodeArray]
    rw [List.take_append_of_le_length (by omega), List.take_of_length_le (by omega),
      fromBytes_toBytes, Nat.mod_eq_of_lt hx0, List.drop_append_of_le_length (by omega),
      List.drop_eq_nil_of_le (by omega), List.nil_append, ih2]

theorem length_encodeArray (E : Endian) (w : Nat) (xs : List Nat) :
    (encodeArray E w xs).length = xs.length * w := by
  induction xs with
  | nil => simp [encodeArray]
  | cons x xs ih =>
    simp only [encodeArray, List.length_append, length_toBytes, ih, List.length_cons]
    ring

theorem encodeArray_lt (E : Endian) (w : Nat) (xs : List Nat) :
    ∀ y ∈ encodeArray E w xs, y < 256 := by
  induction xs with
  | nil => intro y hy; simp [encodeArray] at hy
  | cons x xs ih =>
    intro y hy
    simp only [encodeArray, List.mem_append] at hy
    rcases hy with hy | hy
    · exact toBytes_lt E w x y hy
    · exact ih y hy

theorem encodeArray_decodeArray (E : Endian) (w n : Nat) (b : List Nat)
    (h : isBytes b (n * w)) : encodeArray E w (decodeArray E w n b) = b := by
  induction n generalizing b with
  | zero =>
    obtain ⟨hl, _⟩ := h
    simp at hl
    subst hl
    rfl
  | succ n ih =>
    obtain ⟨hl, hb⟩ := h
    have hl2 : b.length = n * w + w := by rw [hl]; ring
    simp only [decodeArray, encodeArray]
    rw [toBytes_fromBytes E _ w
        ⟨by rw [List.length_take]; omega, fun x hx => hb x (List.mem_of_mem_take hx)⟩,
      ih (b.drop w) ⟨by rw [List.length_drop]; omega,
        fun x hx => hb x (List.mem_of_mem_drop hx)⟩,
      List.take_append_drop]

theorem isArray_decodeArray (E : Endian) (w n : Nat) (b : List Nat)
    (h : isBytes b (n * w)) : isArray w n (decodeArray E w n b) := by
  induction n generalizing b with
  | zero => exact ⟨rfl, fun x hx => by simp [decodeArray] at hx⟩
  | succ n ih =>
    obtain ⟨hl, hb⟩ := h
    have hl2 : b.length = n * w + w := by rw [hl]; ring
    have ih2 := ih (b.drop w) ⟨by rw [List.length_drop]; omega,
      fun x hx => hb x (List.mem_of_mem_drop hx)⟩
    refine ⟨by simp [decodeArray, ih2.1], fun x hx => ?_⟩
    simp only [decodeArray, List.mem_cons] at hx
    rcases hx with rfl | hx
    · exact fromBytes_lt E _ w
        ⟨by rw [List.length_take]; omega, fun x hx => hb x (List.mem_of_mem_take hx)⟩
    · exact ih2.2 x hx

theorem getD_decodeArray (E : Endian) (w n : Nat) (b : List Nat) (k : Nat) (hk : k < n) :
    (decodeArray E w n b).getD k 0 = fromBytes E (slice b (k * w) w) := by
  induction n generalizing b k with
  | zero => omega
  | succ n ih =>
    rcases k with _ | k
    · simp [decodeArray, slice]
    · simp only [decodeArray, List.getD_cons_succ]
      rw [ih (b.drop w) k (by omega)]
      unfold slice
      rw [List.drop_drop]
      congr 3
      ring

/-- Claim C4: the three members of `union snd_pcm_sync_id` read the same 16
bytes.  In every state `id16[k]` is made of `id[2k]`, `id[2k+1]` and `id32[j]`
of `id16[2j]`, `id16[2j+1]` in the byte order of the target.  After
`id32[j] = x` the bytes `id[4j..4j+3]` are the four bytes of `x` in that order,
`id16[2j]` and `id16[2j+1]` are its halves and `id32[j]` reads `x`; likewise
for stores through `id16` and `id`.  After `id32[0] = 0x01020304` the bytes
`id[0..3]` are 04 03 02 01 on a little-endian and 01 02 03 04 on a big-endian
target, and `id32[0]` reads 0x01020304. -/
theorem sync_id_views_alias (E : Endian) (s : snd_pcm_sync_id) (hs : s.inRange) :
    (∀ k, k < 8 →
      s.get E .id16 k = joinHalves E 1 (s.get E .id (2 * k)) (s.get E .id (2 * k + 1))) ∧
    (∀ j, j < 4 →
      s.get E .id32 j =
        joinHalves E 2 (s.get E .id16 (2 * j)) (s.get E .id16 (2 * j + 1))) ∧
    (∀ j x, j < 4 → x < 2 ^ 32 →
      (List.range 4).map (fun i => (s.set E .id32 j x).get E .id (4 * j + i)) =
        (match E with
         | .little => [x % 256, x / 256 % 256, x / 65536 % 256, x / 16777216]
         | .big => [x / 16777216, x / 65536 % 256, x / 256 % 256, x % 256]) ∧
      (s.set E .id32 j x).get E .id16 (2 * j) =
        (match E with
         | .little => x % 65536
         | .big => x / 65536) ∧
      (s.set E .id32 j x).get E .id16 (2 * j + 1) =
        (match E with
         | .little => x / 65536
         | .big => x % 65536) ∧
      (s.set E .id32 j x).get E .id32 j = x) ∧
    (∀ k x, k < 8 → x < 2 ^ 16 →
      (List.range 2).map (fun i => (s.set E .id16 k x).get E .id (2 * k + i)) =
        (match E with
         | .little => [x % 256, x / 256]
         | .big => [x / 256, x % 256]) ∧
      (s.set E .id16 k x).get E .id16 k = x ∧
      (s.set E .id16 k x).get E .id32 (k / 2) =
        (if k % 2 = 0 then joinHalves E 2 x (s.get E .id16 (k + 1))
         else joinHalves E 2 (s.get E .id16 (k - 1)) x)) ∧
    (∀ i x, i < 16 → x < 256 →
      (s.set E .id i x).get E .id i = x ∧
      (s.set E .id i x).get E .id16 (i / 2) =
        (if i % 2 = 0 then joinHalves E 1 x (s.get E .id (i + 1))
         else joinHalves E 1 (s.get E .id (i - 1)) x) ∧
      (s.set E .id i x).get E .id32 (i / 4) =
        joinHalves E 2 ((s.set E .id i x).get E .id16 (2 * (i / 4)))
          ((s.set E .id i x).get E .id16 (2 * (i / 4) + 1))) ∧
    (List.range 4).map (fun i => (s.set .little .id32 0 0x01020304).get .little .id i) =
      [0x04, 0x03, 0x02, 0x01] ∧
    (List.range 4).map (fun i => (s.set .big .id32 0 0x01020304).get .big .id i) =
      [0x01, 0x02, 0x03, 0x04] ∧
    (s.set E .id32 0 0x01020304).get E .id32 0 = 0x01020304 := by
  have w1 : View.width .id = 1 := rfl
  have w2 : View.width .id16 = 2 := rfl
  have w4 : View.width .id32 = 4 := rfl
  have bytes32 : ∀ (E : Endian) (j x : Nat), j < 4 →
      (List.range 4).map (fun i => (s.set E .id32 j x).get E .id (4 * j + i)) =
        toBytes E 4 x := by
    intro E j x hj
    have hr := s.set_inRange E .id32 j x hs hj
    rw [snd_pcm_sync_id.map_get_id E _ (4 * j) 4 (by rw [hr.1]; omega), Nat.mul_comm 4 j]
    exact s.slice_set E .id32 j x hs hj
  refine ⟨fun k hk => s.id16_eq_join E k hs hk, fun j hj => s.id32_eq_join E j hs hj,
    ?_, ?_, ?_, ?_, ?_, ?_⟩
  · intro j x hj hx
    have h16 := s.id16_of_set_id32 E j x hs hj
    refine ⟨?_, ?_, ?_, ?_⟩
    · rw [bytes32 E j x hj, toBytes_four]
      have : x / 16777216 % 256 = x / 16777216 := by omega
      cases E <;> simp [this]
    · rw [h16.1]
      cases E
      · rfl
      · show x / 65536 % 65536 = x / 65536
        omega
    · rw [h16.2]
      cases E
      · show x / 65536 % 65536 = x / 65536
        omega
      · rfl
    · rw [s.get_set_same E .id32 j x hs hj, w4]
      exact Nat.mod_eq_of_lt (by norm_num; omega)
  · intro k x hk hx
    have hr := s.set_inRange E .id16 k x hs hk
    have hsame : (s.set E .id16 k x).get E .id16 k = x := by
      rw [s.get_set_same E .id16 k x hs hk, w2]
      exact Nat.mod_eq_of_lt (by norm_num; omega)
    refine ⟨?_, hsame, ?_⟩
    · rw [snd_pcm_sync_id.map_get_id E _ (2 * k) 2 (by rw [hr.1]; omega), Nat.mul_comm 2 k]
      have h := s.slice_set E .id16 k x hs hk
      rw [w2] at h
      rw [h, toBytes_two]
      have : x / 256 % 256 = x / 256 := by omega
      cases E <;> simp [this]
    · rw [snd_pcm_sync_id.id32_eq_join E _ (k / 2) hr (by omega)]
      by_cases hpar : k % 2 = 0
      · have e : 2 * (k / 2) = k := by omega
        rw [if_pos hpar, e, hsame,
          s.get_set_disjoint E .id16 .id16 k x (k + 1) hs hk
            (by unfold rangesDisjoint; simp only [w2]; omega)]
      · have e : 2 * (k / 2) = k - 1 := by omega
        have e2 : k - 1 + 1 = k := by omega
        rw [if_neg hpar, e, e2, hsame,
          s.get_set_disjoint E .id16 .id16 k x (k - 1) hs hk
            (by unfold rangesDisjoint; simp only [w2]; omega)]
  · intro i x hi hx
    have hr := s.set_inRange E .id i x hs hi
    have hsame : (s.set E .id i x).get E .id i = x := by
      rw [s.get_set_same E .id i x hs hi, w1]
      exact Nat.mod_eq_of_lt (by norm_num; omega)
    refine ⟨hsame, ?_, snd_pcm_sync_id.id32_eq_join E _ (i / 4) hr (by omega)⟩
    rw [snd_pcm_sync_id.id16_eq_join E _ (i / 2) hr (by omega)]
    by_cases hpar : i % 2 = 0
    · have e : 2 * (i / 2) = i := by omega
      rw [if_pos hpar, e, hsame,
        s.get_set_disjoint E .id .id i x (i + 1) hs hi
          (by unfold rangesDisjoint; simp only [w1]; omega)]
    · have e : 2 * (i / 2) = i - 1 := by omega
      have e2 : i - 1 + 1 = i := by omega
      rw [if_neg hpar, e, e2, hsame,
        s.get_set_disjoint E .id .id i x (i - 1) hs hi
          (by unfold rangesDisjoint; simp only [w1]; omega)]
  · have h := bytes32 .little 0 0x01020304 (by omega)
    simp only [Nat.mul_zero, Nat.zero_add] at h
    rw [h]
    rfl
  · have h := bytes32 .big 0 0x01020304 (by omega)
    simp only [Nat.mul_zero, Nat.zero_add] at h
    rw [h]
    rfl
  · rw [s.get_set_same E .id32 0 0x01020304 hs (by decide), w4]
    norm_num

theorem sync_id_views_alias_witness :
    (snd_pcm_sync_id.mk (List.replicate 16 0xff)).inRange ∧
    ((snd_pcm_sync_id.mk (List.replicate 16 0xff)).set .little .id32 0 0x01020304).get
      .little .id32 0 = 0x01020304 :=
  ⟨by decide,
   (sync_id_views_alias .little (snd_pcm_sync_id.mk (List.replicate 16 0xff))
     (by decide)).2.2.2.2.2.2.2⟩

/-- Claim C9: a store to element `k` of a member with element width `w` keeps
the storage at 16 bytes and leaves every byte outside `k*w .. k*w+w-1`
unchanged, so every element of every member whose bytes lie outside that range
reads the same value as before; a store to `id32[0]` leaves `id[4..15]`,
`id16[2..7]` and `id32[1..3]` unchanged. -/
theorem sync_id_store_frame (E : Endian) (s : snd_pcm_sync_id) (v : View) (k x : Nat)
    (hs : s.inRange) (hk : k < v.count) :
    (s.set E v k x).bytes.length = 16 ∧
    (∀ i, i < 16 → (i < k * v.width ∨ k * v.width + v.width ≤ i) →
      (s.set E v k x).bytes.getD i 0 = s.bytes.getD i 0) ∧
    (∀ (u : View) (j : Nat), j < u.count →
      rangesDisjoint (k * v.width, v.width) (j * u.width, u.width) →
      (s.set E v k x).get E u j = s.get E u j) ∧
    (v = .id32 → k = 0 →
      (∀ i, 4 ≤ i → i < 16 → (s.set E v k x).get E .id i = s.get E .id i) ∧
      (∀ j, 2 ≤ j → j < 8 → (s.set E v k x).get E .id16 j = s.get E .id16 j) ∧
      (∀ j, 1 ≤ j → j < 4 → (s.set E v k x).get E .id32 j = s.get E .id32 j)) := by
  have hr := v.elem_range k hk
  refine ⟨(s.set_inRange E v k x hs hk).1, ?_, ?_, ?_⟩
  · intro i _ hout
    unfold snd_pcm_sync_id.set
    exact getD_overwrite_outside _ _ _ _ (by rw [length_toBytes, hs.1]; exact hr)
      (by rw [length_toBytes]; exact hout)
  · intro u j _ hd
    exact s.get_set_disjoint E v u k x j hs hk hd
  · intro hv hk0
    subst hv hk0
    have w1 : View.width .id = 1 := rfl
    have w2 : View.width .id16 = 2 := rfl
    have w4 : View.width .id32 = 4 := rfl
    refine ⟨fun i h1 _ => ?_, fun j h1 _ => ?_, fun j h1 _ => ?_⟩
    · exact s.get_set_disjoint E .id32 .id 0 x i hs hk
        (by unfold rangesDisjoint; simp only [w1, w4]; omega)
    · exact s.get_set_disjoint E .id32 .id16 0 x j hs hk
        (by unfold rangesDisjoint; simp only [w2, w4]; omega)
    · exact s.get_set_disjoint E .id32 .id32 0 x j hs hk
        (by unfold rangesDisjoint; simp only [w4]; omega)

theorem sync_id_store_frame_witness :
    (snd_pcm_sync_id.mk (List.range 16)).inRange ∧ 0 < View.id32.count ∧
    ((snd_pcm_sync_id.mk (List.range 16)).set .big .id32 0 0xdeadbeef).bytes.length = 16 :=
  ⟨by decide, by decide,
   (sync_id_store_frame .big (snd_pcm_sync_id.mk (List.range 16)) .id32 0 0xdeadbeef
     (by decide) (by decide)).1⟩

/-! ### Members of a struct -/

theorem mem_of_lookup {tbl : List (String × Nat × Nat)} {f : String} {r : Nat × Nat}
    (h : tbl.lookup f = some r) : (f, r) ∈ tbl := by
  induction tbl with
  | nil => simp [List.lookup] at h
  | cons e tbl ih =>
    obtain ⟨n, q⟩ := e
    rw [List.lookup_cons] at h
    by_cases hn : f == n
    · rw [hn] at h
      simp only [Option.some.injEq] at h
      have : f = n := by simpa using hn
      subst this h
      exact List.mem_cons_self _ _
    · have hn2 : (f == n) = false := by simpa using hn
      rw [hn2] at h
      exact List.mem_cons_of_mem _ (ih h)

theorem disjoint_of_mem {tbl : List (String × Nat × Nat)} (hd : pairwiseDisjoint tbl)
    {e e2 : String × Nat × Nat} (he : e ∈ tbl) (he2 : e2 ∈ tbl) (hne : e.1 ≠ e2.1) :
    rangesDisjoint e.2 e2.2 := by
  obtain ⟨i, hi, rfl⟩ := List.getElem_of_mem he
  obtain ⟨j, hj, rfl⟩ := List.getElem_of_mem he2
  have hij : i ≠ j := by
    intro h
    subst h
    exact hne rfl
  have h := hd i hi j hj hij
  rw [List.getD_eq_getElem?_getD, List.getD_eq_getElem?_getD, List.getElem?_eq_getElem hi,
    List.getElem?_eq_getElem hj] at h
  exact h

theorem length_writeField (A : ABI) (t : CType) (b : List Nat) (f : String) (bs : List Nat)
    (r : Nat × Nat) (hf : (layout A t).lookup f = some r) (hl : bs.length = r.2)
    (hb : ∀ e ∈ layout A t, e.2.1 + e.2.2 ≤ b.length) :
    (writeField A t b f bs).length = b.length := by
  have hr : fieldRange A t f = r := by simp [fieldRange, hf]
  have h := hb _ (mem_of_lookup hf)
  unfold writeField
  rw [hr]
  exact length_overwrite _ _ _ (by rw [hl]; exact h)

theorem fieldBytes_writeField (A : ABI) (t : CType) (b : List Nat) (f g : String)
    (bs : List Nat) (r : Nat × Nat) (hd : pairwiseDisjoint (layout A t))
    (hb : ∀ e ∈ layout A t, e.2.1 + e.2.2 ≤ b.length)
    (hf : (layout A t).lookup f = some r) (hl : bs.length = r.2) :
    fieldBytes A t (writeField A t b f bs) g = if g = f then bs else fieldBytes A t b g := by
  have hr : fieldRange A t f = r := by simp [fieldRange, hf]
  have hmem := mem_of_lookup hf
  have hin := hb _ hmem
  simp only at hin
  by_cases hg : g = f
  · subst hg
    rw [if_pos rfl]
    unfold fieldBytes writeField
    rw [hr, ← hl]
    exact slice_overwrite_same _ _ _ (by rw [hl]; exact hin)
  · rw [if_neg hg]
    unfold fieldBytes writeField
    rw [hr]
    cases hq : (layout A t).lookup g with
    | none =>
      have : fieldRange A t g = (0, 0) := by simp [fieldRange, hq]
      rw [this]
      simp [slice]
    | some q =>
      have hrg : fieldRange A t g = q := by simp [fieldRange, hq]
      have hdis := disjoint_of_mem hd hmem (mem_of_lookup hq) (fun h => hg h.symm)
      unfold rangesDisjoint at hdis
      simp only at hdis
      rw [hrg]
      exact slice_overwrite_disjoint _ _ _ _ _ (by rw [hl]; exact hin)
        (by rw [hl]; omega)

/-- Every listed member exists and receives exactly as many bytes as it is wide. -/
theorem length_storeFields (A : ABI) (t : CType) (vals : List (String × List Nat))
    (hb : ∀ e ∈ layout A t, e.2.1 + e.2.2 ≤ sizeof A t)
    (hv : ∀ m ∈ vals, ∃ r, (layout A t).lookup m.1 = some r ∧ m.2.length = r.2) :
    (storeFields A t vals).length = sizeof A t := by
  induction vals with
  | nil => simp [storeFields]
  | cons m vals ih =>
    have ih2 := ih (fun x hx => hv x (List.mem_cons_of_mem _ hx))
    obtain ⟨r, hr, hl⟩ := hv m (List.mem_cons_self _ _)
    have hstep : storeFields A t (m :: vals) =
        writeField A t (storeFields A t vals) m.1 m.2 := rfl
    rw [hstep, length_writeField A t _ m.1 m.2 r hr hl (by rw [ih2]; exact hb), ih2]

theorem fieldBytes_storeFields (A : ABI) (t : CType) (vals : List (String × List Nat))
    (g : String) (hd : pairwiseDisjoint (layout A t))
    (hb : ∀ e ∈ layout A t, e.2.1 + e.2.2 ≤ sizeof A t)
    (hv : ∀ m ∈ vals, ∃ r, (layout A t).lookup m.1 = some r ∧ m.2.length = r.2) :
    fieldBytes A t (storeFields A t vals) g =
      (vals.lookup g).getD (fieldBytes A t (List.replicate (sizeof A t) 0) g) := by
  induction vals with
  | nil => simp [storeFields]
  | cons m vals ih =>
    have hv2 : ∀ x ∈ vals, ∃ r, (layout A t).lookup x.1 = some r ∧ x.2.length = r.2 :=
      fun x hx => hv x (List.mem_cons_of_mem _ hx)
    have ih2 := ih hv2
    have hlen := length_storeFields A t vals hb hv2
    obtain ⟨r, hr, hl⟩ := hv m (List.mem_cons_self _ _)
    have hstep : storeFields A t (m :: vals) =
        writeField A t (storeFields A t vals) m.1 m.2 := rfl
    rw [hstep, fieldBytes_writeField A t _ m.1 g m.2 r hd (by rw [hlen]; exact hb) hr hl]
    obtain ⟨n, bs⟩ := m
    rw [List.lookup_cons]
    by_cases hg : g = n
    · subst hg
      simp
    · have : (g == n) = false := by simpa using hg
      rw [if_neg hg, this, ih2]

theorem slice_packedFrom (A : ABI) (ms : List (String × CType)) (off : Nat)
    (b c : List Nat)
    (h : ∀ e ∈ packedFrom A off ms, slice b e.2.1 e.2.2 = slice c e.2.1 e.2.2) :
    slice b off ((ms.map (fun m => sizeof A m.2)).sum) =
      slice c off ((ms.map (fun m => sizeof A m.2)).sum) := by
  induction ms generalizing off with
  | nil => simp [slice]
  | cons m ms ih =>
    obtain ⟨n, t⟩ := m
    have h1 := h (n, off, sizeof A t) (by simp [packedFrom])
    have h2 := ih (off + sizeof A t) (fun e he => h e (by simp [packedFrom, he]))
    simp only at h1
    simp only [List.map_cons, List.sum_cons]
    rw [← slice_append, ← slice_append, h1, h2]

theorem buffer_ext (A : ABI) (t : CType) (b c : List Nat)
    (hpk : layout A t = packedLayout A t) (hsz : sizeof A t = sumSizes A t)
    (hu : ∀ e ∈ layout A t, fieldRange A t e.1 = e.2)
    (hb : b.length = sizeof A t) (hc : c.length = sizeof A t)
    (h : ∀ e ∈ layout A t, fieldBytes A t b e.1 = fieldBytes A t c e.1) : b = c := by
  have key := slice_packedFrom A t.members 0 b c (by
    intro e he
    have he2 : e ∈ layout A t := by rw [hpk]; exact he
    have := h e he2
    unfold fieldBytes at this
    rw [hu e he2] at this
    exact this)
  have hs : (t.members.map (fun m => sizeof A m.2)).sum = sizeof A t := by
    rw [hsz]; rfl
  rw [hs] at key
  have e1 := slice_full b
  have e2 := slice_full c
  rw [hb] at e1
  rw [hc] at e2
  rw [← e1, ← e2, key]

theorem isBytes_fieldBytes (A : ABI) (t : CType) (b : List Nat) (n : Nat) (f : String)
    (r : Nat × Nat) (hf : (layout A t).lookup f = some r) (hb : isBytes b n)
    (hr : r.1 + r.2 ≤ n) : isBytes (fieldBytes A t b f) r.2 := by
  have h : fieldRange A t f = r := by simp [fieldRange, hf]
  unfold fieldBytes
  rw [h]
  exact isBytes_slice b n _ _ hb hr

theorem storeFields_lt (A : ABI) (t : CType) (vals : List (String × List Nat))
    (hv : ∀ m ∈ vals, ∀ x ∈ m.2, x < 256) : ∀ x ∈ storeFields A t vals, x < 256 := by
  induction vals with
  | nil =>
    intro x hx
    simp [storeFields] at hx
    omega
  | cons m vals ih =>
    intro x hx
    have hstep : storeFields A t (m :: vals) =
        writeField A t (storeFields A t vals) m.1 m.2 := rfl
    rw [hstep] at hx
    unfold writeField at hx
    rcases mem_overwrite hx with h | h
    · exact ih (fun y hy => hv y (List.mem_cons_of_mem _ hy)) x h
    · exact hv m (List.mem_cons_self _ _) x h

/-! ### `struct snd_pcm_info` -/

theorem pcm_layout : layout ABI.linux snd_pcm_info.ctype =
    [("device", 0, 4), ("subdevice", 4, 4), ("stream", 8, 4), ("card", 12, 4),
     ("id", 16, 64), ("name", 80, 80), ("subname", 160, 32), ("dev_class", 192, 4),
     ("dev_subclass", 196, 4), ("subdevices_count", 200, 4),
     ("subdevices_avail", 204, 4), ("sync", 208, 16), ("reserved", 224, 64)] := by
  decide

theorem pcm_sizeof : sizeof ABI.linux snd_pcm_info.ctype = 288 := by decide

theorem pcm_disjoint : pairwiseDisjoint (layout ABI.linux snd_pcm_info.ctype) := by decide

theorem pcm_bounds : ∀ e ∈ layout ABI.linux snd_pcm_info.ctype,
    e.2.1 + e.2.2 ≤ sizeof ABI.linux snd_pcm_info.ctype := by decide

theorem pcm_unique : ∀ e ∈ layout ABI.linux snd_pcm_info.ctype,
    fieldRange ABI.linux snd_pcm_info.ctype e.1 = e.2 := by decide

theorem pcm_fields_fit (E : Endian) (r : snd_pcm_info) (h : r.inRange) :
    ∀ m ∈ r.fields E, ∃ q, (layout ABI.linux snd_pcm_info.ctype).lookup m.1 = some q ∧
      m.2.length = q.2 := by
  obtain ⟨_, _, _, _, h5, h6, h7, _, _, _, _, h12, h13⟩ := h
  intro m hm
  simp only [snd_pcm_info.fields, List.mem_cons, List.mem_singleton, List.not_mem_nil,
    or_false] at hm
  rcases hm with rfl | rfl | rfl | rfl | rfl | rfl | rfl | rfl | rfl | rfl | rfl | rfl | rfl
  · exact ⟨(0, 4),
      (by decide : (layout ABI.linux snd_pcm_info.ctype).lookup "device" = some (0, 4)),
      length_toBytes _ _ _⟩
  · exact ⟨(4, 4),
      (by decide : (layout ABI.linux snd_pcm_info.ctype).lookup "subdevice" = some (4, 4)),
      length_toBytes _ _ _⟩
  · exact ⟨(8, 4),
      (by decide : (layout ABI.linux snd_pcm_info.ctype).lookup "stream" = some (8, 4)),
      length_toBytes _ _ _⟩
  · exact ⟨(12, 4),
      (by decide : (layout ABI.linux snd_pcm_info.ctype).lookup "card" = some (12, 4)),
      length_toBytes _ _ _⟩
  · exact ⟨(16, 64),
      (by decide : (layout ABI.linux snd_pcm_info.ctype).lookup "id" = some (16, 64)),
      h5.1⟩
  · exact ⟨(80, 80),
      (by decide : (layout ABI.linux snd_pcm_info.ctype).lookup "name" = some (80, 80)),
      h6.1⟩
  · exact ⟨(160, 32),
      (by decide : (layout ABI.linux snd_pcm_info.ctype).lookup "subname" = some (160, 32)),
      h7.1⟩
  · exact ⟨(192, 4),
      (by decide : (layout ABI.linux snd_pcm_info.ctype).lookup "dev_class" = some (192, 4)),
      length_toBytes _ _ _⟩
  · exact ⟨(196, 4),
      (by decide : (layout ABI.linux snd_pcm_info.ctype).lookup "dev_subclass" = some (196, 4)),
      length_toBytes _ _ _⟩
  · exact ⟨(200, 4),
      (by decide : (layout ABI.linux snd_pcm_info.ctype).lookup "subdevices_count" = some (200, 4)),
      length_toBytes _ _ _⟩
  · exact ⟨(204, 4),
      (by decide : (layout ABI.linux snd_pcm_info.ctype).lookup "subdevices_avail" = some (204, 4)),
      length_toBytes _ _ _⟩
  · exact ⟨(208, 16),
      (by decide : (layout ABI.linux snd_pcm_info.ctype).lookup "sync" = some (208, 16)),
      h12.1⟩
  · exact ⟨(224, 64),
      (by decide : (layout ABI.linux snd_pcm_info.ctype).lookup "reserved" = some (224, 64)),
      h13.1⟩

theorem pcm_fields_lt (E : Endian) (r : snd_pcm_info) (h : r.inRange) :
    ∀ m ∈ r.fields E, ∀ x ∈ m.2, x < 256 := by
  obtain ⟨_, _, _, _, h5, h6, h7, _, _, _, _, h12, h13⟩ := h
  intro m hm
  simp only [snd_pcm_info.fields, List.mem_cons, List.mem_singleton, List.not_mem_nil,
    or_false] at hm
  rcases hm with rfl | rfl | rfl | rfl | rfl | rfl | rfl | rfl | rfl | rfl | rfl | rfl | rfl
  · exact toBytes_lt _ _ _
  · exact toBytes_lt _ _ _
  · exact toBytes_lt _ _ _
  · exact toBytes_lt _ _ _
  · exact h5.2
  · exact h6.2
  · exact h7.2
  · exact toBytes_lt _ _ _
  · exact toBytes_lt _ _ _
  · exact toBytes_lt _ _ _
  · exact toBytes_lt _ _ _
  · exact h12.2
  · exact h13.2

theorem pcm_encode_isBytes (E : Endian) (r : snd_pcm_info) (h : r.inRange) :
    isBytes (r.encode E) 288 := by
  refine ⟨?_, storeFields_lt _ _ _ (pcm_fields_lt E r h)⟩
  unfold snd_pcm_info.encode
  rw [length_storeFields _ _ _ pcm_bounds (pcm_fields_fit E r h), pcm_sizeof]

theorem pcm_fieldBytes_encode (E : Endian) (r : snd_pcm_info) (h : r.inRange) (g : String) :
    fieldBytes ABI.linux snd_pcm_info.ctype (r.encode E) g =
      ((r.fields E).lookup g).getD
        (fieldBytes ABI.linux snd_pcm_info.ctype
          (List.replicate (sizeof ABI.linux snd_pcm_info.ctype) 0) g) :=
  fieldBytes_storeFields _ _ _ g pcm_disjoint pcm_bounds (pcm_fields_fit E r h)

theorem pcm_decode_inRange (E : Endian) (b : List Nat) (hb : isBytes b 288) :
    (snd_pcm_info.decode E b).inRange := by
  have fb : ∀ (f : String) (q : Nat × Nat),
      (layout ABI.linux snd_pcm_info.ctype).lookup f = some q → q.1 + q.2 ≤ 288 →
      isBytes (fieldBytes ABI.linux snd_pcm_info.ctype b f) q.2 :=
    fun f q hq hr => isBytes_fieldBytes _ _ b 288 f q hq hb hr
  unfold snd_pcm_info.decode snd_pcm_info.ofFields snd_pcm_info.inRange
  refine ⟨?_, ?_, ?_, ?_, ?_, ?_, ?_, ?_, ?_, ?_, ?_, ?_, ?_⟩
  · exact fromBytes_lt E _ 4 (fb "device" (0, 4) (by decide) (by decide))
  · exact fromBytes_lt E _ 4 (fb "subdevice" (4, 4) (by decide) (by decide))
  · exact inSigned_toSigned _ (fromBytes_lt E _ 4 (fb "stream" (8, 4) (by decide) (by decide)))
  · exact inSigned_toSigned _ (fromBytes_lt E _ 4 (fb "card" (12, 4) (by decide) (by decide)))
  · exact fb "id" (16, 64) (by decide) (by decide)
  · exact fb "name" (80, 80) (by decide) (by decide)
  · exact fb "subname" (160, 32) (by decide) (by decide)
  · exact inSigned_toSigned _
      (fromBytes_lt E _ 4 (fb "dev_class" (192, 4) (by decide) (by decide)))
  · exact inSigned_toSigned _
      (fromBytes_lt E _ 4 (fb "dev_subclass" (196, 4) (by decide) (by decide)))
  · exact fromBytes_lt E _ 4 (fb "subdevices_count" (200, 4) (by decide) (by decide))
  · exact fromBytes_lt E _ 4 (fb "subdevices_avail" (204, 4) (by decide) (by decide))
  · exact fb "sync" (208, 16) (by decide) (by decide)
  · exact fb "reserved" (224, 64) (by decide) (by decide)

theorem fromBytes_toBytes_of_lt (E : Endian) (x : Nat) (h : x < 256 ^ 4) :
    fromBytes E (toBytes E 4 x) = x := by
  rw [fromBytes_toBytes, Nat.mod_eq_of_lt h]

theorem signed_roundtrip (E : Endian) (z : Int) (h : inSigned 4 z) :
    toSigned 4 (fromBytes E (toBytes E 4 (ofSigned 4 z))) = z := by
  rw [fromBytes_toBytes_of_lt E _ (ofSigned_lt z), toSigned_ofSigned z h]

theorem signed_bytes_roundtrip (E : Endian) (bs : List Nat) (h : isBytes bs 4) :
    toBytes E 4 (ofSigned 4 (toSigned 4 (fromBytes E bs))) = bs := by
  rw [ofSigned_toSigned _ (fromBytes_lt E bs 4 h), toBytes_fromBytes E bs 4 h]

theorem pcm_decode_encode (E : Endian) (r : snd_pcm_info) (h : r.inRange) :
    snd_pcm_info.decode E (r.encode E) = r := by
  have hf := pcm_fieldBytes_encode E r h
  obtain ⟨h1, h2, h3, h4, h5, h6, h7, h8, h9, h10, h11, h12, h13⟩ := h
  unfold snd_pcm_info.decode snd_pcm_info.ofFields
  rw [hf "device", hf "subdevice", hf "stream", hf "card", hf "id", hf "name", hf "subname",
    hf "dev_class", hf "dev_subclass", hf "subdevices_count", hf "subdevices_avail",
    hf "sync", hf "reserved"]
  have e1 : (r.fields E).lookup "device" = some (toBytes E 4 r.device) := rfl
  have e2 : (r.fields E).lookup "subdevice" = some (toBytes E 4 r.subdevice) := rfl
  have e3 : (r.fields E).lookup "stream" = some (toBytes E 4 (ofSigned 4 r.stream)) := rfl
  have e4 : (r.fields E).lookup "card" = some (toBytes E 4 (ofSigned 4 r.card)) := rfl
  have e5 : (r.fields E).lookup "id" = some r.id := rfl
  have e6 : (r.fields E).lookup "name" = some r.name := rfl
  have e7 : (r.fields E).lookup "subname" = some r.subname := rfl
  have e8 : (r.fields E).lookup "dev_class" = some (toBytes E 4 (ofSigned 4 r.dev_class)) :=
    rfl
  have e9 : (r.fields E).lookup "dev_subclass" =
      some (toBytes E 4 (ofSigned 4 r.dev_subclass)) := rfl
  have e10 : (r.fields E).lookup "subdevices_count" =
      some (toBytes E 4 r.subdevices_count) := rfl
  have e11 : (r.fields E).lookup "subdevices_avail" =
      some (toBytes E 4 r.subdevices_avail) := rfl
  have e12 : (r.fields E).lookup "sync" = some r.sync.encode := rfl
  have e13 : (r.fields E).lookup "reserved" = some r.reserved := rfl
  rw [e1, e2, e3, e4, e5, e6, e7, e8, e9, e10, e11, e12, e13]
  simp only [Option.getD_some]
  rw [fromBytes_toBytes_of_lt E _ h1, fromBytes_toBytes_of_lt E _ h2,
    signed_roundtrip E _ h3, signed_roundtrip E _ h4, signed_roundtrip E _ h8,
    signed_roundtrip E _ h9, fromBytes_toBytes_of_lt E _ h10,
    fromBytes_toBytes_of_lt E _ h11]
  rfl

theorem pcm_encode_decode (E : Endian) (b : List Nat) (hb : isBytes b 288) :
    (snd_pcm_info.decode E b).encode E = b := by
  have hr := pcm_decode_inRange E b hb
  have hf := pcm_fieldBytes_encode E _ hr
  have fb : ∀ (f : String) (q : Nat × Nat),
      (layout ABI.linux snd_pcm_info.ctype).lookup f = some q → q.1 + q.2 ≤ 288 →
      isBytes (fieldBytes ABI.linux snd_pcm_info.ctype b f) q.2 :=
    fun f q hq hr => isBytes_fieldBytes _ _ b 288 f q hq hb hr
  apply buffer_ext ABI.linux snd_pcm_info.ctype _ _ (by decide) (by decide) pcm_unique
    (by rw [(pcm_encode_isBytes E _ hr).1, pcm_sizeof]) (by rw [hb.1, pcm_sizeof])
  intro e he
  rw [hf e.1]
  rw [pcm_layout] at he
  simp only [List.mem_cons, List.mem_singleton, List.not_mem_nil, or_false] at he
  rcases he with rfl | rfl | rfl | rfl | rfl | rfl | rfl | rfl | rfl | rfl | rfl | rfl | rfl
  · exact toBytes_fromBytes E _ 4 (fb "device" (0, 4) (by decide) (by decide))
  · exact toBytes_fromBytes E _ 4 (fb "subdevice" (4, 4) (by decide) (by decide))
  · exact signed_bytes_roundtrip E _ (fb "stream" (8, 4) (by decide) (by decide))
  · exact signed_bytes_roundtrip E _ (fb "card" (12, 4) (by decide) (by decide))
  · rfl
  · rfl
  · rfl
  · exact signed_bytes_roundtrip E _ (fb "dev_class" (192, 4) (by decide) (by decide))
  · exact signed_bytes_roundtrip E _ (fb "dev_subclass" (196, 4) (by decide) (by decide))
  · exact toBytes_fromBytes E _ 4 (fb "subdevices_count" (200, 4) (by decide) (by decide))
  · exact toBytes_fromBytes E _ 4 (fb "subdevices_avail" (204, 4) (by decide) (by decide))
  · rfl
  · rfl

/-! ### `struct snd_ctl_card_info` -/

theorem card_layout : layout ABI.linux snd_ctl_card_info.ctype =
    [("card", 0, 4), ("pad", 4, 4), ("id", 8, 16), ("driver", 24, 16), ("name", 40, 32),
     ("longname", 72, 80), ("reserved_", 152, 16), ("mixername", 168, 80),
     ("components", 248, 128)] := by
  decide

theorem card_sizeof : sizeof ABI.linux snd_ctl_card_info.ctype = 376 := by decide

theorem card_disjoint : pairwiseDisjoint (layout ABI.linux snd_ctl_card_info.ctype) := by
  decide

theorem card_bounds : ∀ e ∈ layout ABI.linux snd_ctl_card_info.ctype,
    e.2.1 + e.2.2 ≤ sizeof ABI.linux snd_ctl_card_info.ctype := by decide

theorem card_unique : ∀ e ∈ layout ABI.linux snd_ctl_card_info.ctype,
    fieldRange ABI.linux snd_ctl_card_info.ctype e.1 = e.2 := by decide

theorem card_fields_fit (E : Endian) (r : snd_ctl_card_info) (h : r.inRange) :
    ∀ m ∈ r.fields E, ∃ q, (layout ABI.linux snd_ctl_card_info.ctype).lookup m.1 = some q ∧
      m.2.length = q.2 := by
  obtain ⟨_, _, h3, h4, h5, h6, h7, h8, h9⟩ := h
  intro m hm
  simp only [snd_ctl_card_info.fields, List.mem_cons, List.mem_singleton, List.not_mem_nil,
    or_false] at hm
  rcases hm with rfl | rfl | rfl | rfl | rfl | rfl | rfl | rfl | rfl
  · exact ⟨(0, 4),
      (by decide : (layout ABI.linux snd_ctl_card_info.ctype).lookup "card" = some (0, 4)),
      length_toBytes _ _ _⟩
  · exact ⟨(4, 4),
      (by decide : (layout ABI.linux snd_ctl_card_info.ctype).lookup "pad" = some (4, 4)),
      length_toBytes _ _ _⟩
  · exact ⟨(8, 16),
      (by decide : (layout ABI.linux snd_ctl_card_info.ctype).lookup "id" = some (8, 16)),
      h3.1⟩
  · exact ⟨(24, 16),
      (by decide :
        (layout ABI.linux snd_ctl_card_info.ctype).lookup "driver" = some (24, 16)),
      h4.1⟩
  · exact ⟨(40, 32),
      (by decide : (layout ABI.linux snd_ctl_card_info.ctype).lookup "name" = some (40, 32)),
      h5.1⟩
  · exact ⟨(72, 80),
      (by decide :
        (layout ABI.linux snd_ctl_card_info.ctype).lookup "longname" = some (72, 80)),
      h6.1⟩
  · exact ⟨(152, 16),
      (by decide :
        (layout ABI.linux snd_ctl_card_info.ctype).lookup "reserved_" = some (152, 16)),
      h7.1⟩
  · exact ⟨(168, 80),
      (by decide :
        (layout ABI.linux snd_ctl_card_info.ctype).lookup "mixername" = some (168, 80)),
      h8.1⟩
  · exact ⟨(248, 128),
      (by decide :
        (layout ABI.linux snd_ctl_card_info.ctype).lookup "components" = some (248, 128)),
      h9.1⟩

theorem card_fields_lt (E : Endian) (r : snd_ctl_card_info) (h : r.inRange) :
    ∀ m ∈ r.fields E, ∀ x ∈ m.2, x < 256 := by
  obtain ⟨_, _, h3, h4, h5, h6, h7, h8, h9⟩ := h
  intro m hm
  simp only [snd_ctl_card_info.fields, List.mem_cons, List.mem_singleton, List.not_mem_nil,
    or_false] at hm
  rcases hm with rfl | rfl | rfl | rfl | rfl | rfl | rfl | rfl | rfl
  · exact toBytes_lt _ _ _
  · exact toBytes_lt _ _ _
  · exact h3.2
  · exact h4.2
  · exact h5.2
  · exact h6.2
  · exact h7.2
  · exact h8.2
  · exact h9.2

theorem card_encode_isBytes (E : Endian) (r : snd_ctl_card_info) (h : r.inRange) :
    isBytes (r.encode E) 376 := by
  refine ⟨?_, storeFields_lt _ _ _ (card_fields_lt E r h)⟩
  unfold snd_ctl_card_info.encode
  rw [length_storeFields _ _ _ card_bounds (card_fields_fit E r h), card_sizeof]

theorem card_fieldBytes_encode (E : Endian) (r : snd_ctl_card_info) (h : r.inRange)
    (g : String) :
    fieldBytes ABI.linux snd_ctl_card_info.ctype (r.encode E) g =
      ((r.fields E).lookup g).getD
        (fieldBytes ABI.linux snd_ctl_card_info.ctype
          (List.replicate (sizeof ABI.linux snd_ctl_card_info.ctype) 0) g) :=
  fieldBytes_storeFields _ _ _ g card_disjoint card_bounds (card_fields_fit E r h)

theorem card_decode_inRange (E : Endian) (b : List Nat) (hb : isBytes b 376) :
    (snd_ctl_card_info.decode E b).inRange := by
  have fb : ∀ (f : String) (q : Nat × Nat),
      (layout ABI.linux snd_ctl_card_info.ctype).lookup f = some q → q.1 + q.2 ≤ 376 →
      isBytes (fieldBytes ABI.linux snd_ctl_card_info.ctype b f) q.2 :=
    fun f q hq hr => isBytes_fieldBytes _ _ b 376 f q hq hb hr
  unfold snd_ctl_card_info.decode snd_ctl_card_info.ofFields snd_ctl_card_info.inRange
  refine ⟨?_, ?_, ?_, ?_, ?_, ?_, ?_, ?_, ?_⟩
  · exact inSigned_toSigned _ (fromBytes_lt E _ 4 (fb "card" (0, 4) (by decide) (by decide)))
  · exact inSigned_toSigned _ (fromBytes_lt E _ 4 (fb "pad" (4, 4) (by decide) (by decide)))
  · exact fb "id" (8, 16) (by decide) (by decide)
  · exact fb "driver" (24, 16) (by decide) (by decide)
  · exact fb "name" (40, 32) (by decide) (by decide)
  · exact fb "longname" (72, 80) (by decide) (by decide)
  · exact fb "reserved_" (152, 16) (by decide) (by decide)
  · exact fb "mixername" (168, 80) (by decide) (by decide)
  · exact fb "components" (248, 128) (by decide) (by decide)

theorem card_decode_encode (E : Endian) (r : snd_ctl_card_info) (h : r.inRange) :
    snd_ctl_card_info.decode E (r.encode E) = r := by
  have hf := card_fieldBytes_encode E r h
  obtain ⟨h1, h2, _, _, _, _, _, _, _⟩ := h
  unfold snd_ctl_card_info.decode snd_ctl_card_info.ofFields
  rw [hf "card", hf "pad", hf "id", hf "driver", hf "name", hf "longname", hf "reserved_",
    hf "mixername", hf "components"]
  have e1 : (r.fields E).lookup "card" = some (toBytes E 4 (ofSigned 4 r.card)) := rfl
  have e2 : (r.fields E).lookup "pad" = some (toBytes E 4 (ofSigned 4 r.pad)) := rfl
  have e3 : (r.fields E).lookup "id" = some r.id := rfl
  have e4 : (r.fields E).lookup "driver" = some r.driver := rfl
  have e5 : (r.fields E).lookup "name" = some r.name := rfl
  have e6 : (r.fields E).lookup "longname" = some r.longname := rfl
  have e7 : (r.fields E).lookup "reserved_" = some r.reserved_ := rfl
  have e8 : (r.fields E).lookup "mixername" = some r.mixername := rfl
  have e9 : (r.fields E).lookup "components" = some r.components := rfl
  rw [e1, e2, e3, e4, e5, e6, e7, e8, e9]
  simp only [Option.getD_some]
  rw [signed_roundtrip E _ h1, signed_roundtrip E _ h2]

theorem card_encode_decode (E : Endian) (b : List Nat) (hb : isBytes b 376) :
    (snd_ctl_card_info.decode E b).encode E = b := by
  have hr := card_decode_inRange E b hb
  have hf := card_fieldBytes_encode E _ hr
  have fb : ∀ (f : String) (q : Nat × Nat),
      (layout ABI.linux snd_ctl_card_info.ctype).lookup f = some q → q.1 + q.2 ≤ 376 →
      isBytes (fieldBytes ABI.linux snd_ctl_card_info.ctype b f) q.2 :=
    fun f q hq hr => isBytes_fieldBytes _ _ b 376 f q hq hb hr
  apply buffer_ext ABI.linux snd_ctl_card_info.ctype _ _ (by decide) (by decide) card_unique
    (by rw [(card_encode_isBytes E _ hr).1, card_sizeof]) (by rw [hb.1, card_sizeof])
  intro e he
  rw [hf e.1]
  rw [card_layout] at he
  simp only [List.mem_cons, List.mem_singleton, List.not_mem_nil, or_false] at he
  rcases he with rfl | rfl | rfl | rfl | rfl | rfl | rfl | rfl | rfl
  · exact signed_bytes_roundtrip E _ (fb "card" (0, 4) (by decide) (by decide))
  · exact signed_bytes_roundtrip E _ (fb "pad" (4, 4) (by decide) (by decide))
  · rfl
  · rfl
  · rfl
  · rfl
  · rfl
  · rfl
  · rfl

/-- Claim C5: for a buffer of the size of the record, decoding and encoding
again gives the same buffer: for `union snd_pcm_sync_id` (16 bytes, through the
storage and through each of its three members), for `struct snd_pcm_info` (288
bytes) and for `struct snd_ctl_card_info` (376 bytes).  The bytes of `reserved`,
`pad` and `reserved_` are carried over whatever they hold. -/
theorem buffer_roundtrip (E : Endian) (b1 b2 b3 : List Nat)
    (h1 : isBytes b1 16) (h2 : isBytes b2 288) (h3 : isBytes b3 376) :
    (snd_pcm_sync_id.decode b1).encode = b1 ∧
    (∀ v : View,
      (snd_pcm_sync_id.ofView E v ((snd_pcm_sync_id.decode b1).view E v)).encode = b1 ∧
      isArray v.width v.count ((snd_pcm_sync_id.decode b1).view E v) ∧
      ∀ k, k < v.count →
        ((snd_pcm_sync_id.decode b1).view E v).getD k 0 =
          (snd_pcm_sync_id.decode b1).get E v k) ∧
    (snd_pcm_info.decode E b2).encode E = b2 ∧
    (snd_ctl_card_info.decode E b3).encode E = b3 ∧
    (snd_pcm_info.decode E b2).reserved = slice b2 224 64 ∧
    (snd_ctl_card_info.decode E b3).reserved_ = slice b3 152 16 ∧
    (snd_ctl_card_info.decode E b3).pad = toSigned 4 (fromBytes E (slice b3 4 4)) := by
  refine ⟨rfl, ?_, pcm_encode_decode E b2 h2, card_encode_decode E b3 h3, rfl, rfl, rfl⟩
  intro v
  have hv : isBytes b1 (v.count * v.width) := by rw [v.count_mul_width]; exact h1
  unfold snd_pcm_sync_id.ofView snd_pcm_sync_id.view snd_pcm_sync_id.decode
    snd_pcm_sync_id.encode snd_pcm_sync_id.get
  exact ⟨encodeArray_decodeArray E v.width v.count b1 hv,
    isArray_decodeArray E v.width v.count b1 hv,
    fun k hk => getD_decodeArray E v.width v.count b1 k hk⟩

theorem buffer_roundtrip_witness :
    isBytes (List.range 16) 16 ∧ isBytes (List.replicate 288 0xa5) 288 ∧
    isBytes (List.replicate 376 0x5a) 376 ∧
    (snd_pcm_info.decode .big (List.replicate 288 0xa5)).encode .big =
      List.replicate 288 0xa5 :=
  ⟨by decide, by decide, by decide,
   (buffer_roundtrip .big (List.range 16) (List.replicate 288 0xa5)
     (List.replicate 376 0x5a) (by decide) (by decide) (by decide)).2.2.1⟩

theorem pcm_covered : ∀ i, i < 288 → ∃ e ∈ layout ABI.linux snd_pcm_info.ctype,
    e.2.1 ≤ i ∧ i < e.2.1 + e.2.2 := by
  intro i hi
  rw [pcm_layout]
  simp only [List.mem_cons, List.mem_singleton, List.not_mem_nil, or_false, exists_eq_or_imp,
    exists_eq_left]
  omega

theorem card_covered : ∀ i, i < 376 → ∃ e ∈ layout ABI.linux snd_ctl_card_info.ctype,
    e.2.1 ≤ i ∧ i < e.2.1 + e.2.2 := by
  intro i hi
  rw [card_layout]
  simp only [List.mem_cons, List.mem_singleton, List.not_mem_nil, or_false, exists_eq_or_imp,
    exists_eq_left]
  omega

/-- Claim C8: for records whose members hold values of their declared types,
decoding the encoding gives the record back, the encoding has the size of the
record, encoding is injective, every buffer of that size is the encoding of
such a record, and every byte of the buffer belongs to a member. -/
theorem record_roundtrip (E : Endian) (s : snd_pcm_sync_id) (p : snd_pcm_info)
    (c : snd_ctl_card_info) (hs : s.inRange) (hp : p.inRange) (hc : c.inRange) :
    (snd_pcm_sync_id.decode s.encode = s ∧ isBytes s.encode 16) ∧
    (∀ (v : View) (xs : List Nat), isArray v.width v.count xs →
      (snd_pcm_sync_id.ofView E v xs).view E v = xs ∧
      (snd_pcm_sync_id.ofView E v xs).inRange) ∧
    (snd_pcm_info.decode E (p.encode E) = p ∧ isBytes (p.encode E) 288) ∧
    (snd_ctl_card_info.decode E (c.encode E) = c ∧ isBytes (c.encode E) 376) ∧
    (∀ s2 : snd_pcm_sync_id, s2.inRange → s2.encode = s.encode → s2 = s) ∧
    (∀ p2 : snd_pcm_info, p2.inRange → p2.encode E = p.encode E → p2 = p) ∧
    (∀ c2 : snd_ctl_card_info, c2.inRange → c2.encode E = c.encode E → c2 = c) ∧
    (∀ b, isBytes b 16 → ∃ s2 : snd_pcm_sync_id, s2.inRange ∧ s2.encode = b) ∧
    (∀ b, isBytes b 288 → ∃ p2 : snd_pcm_info, p2.inRange ∧ p2.encode E = b) ∧
    (∀ b, isBytes b 376 → ∃ c2 : snd_ctl_card_info, c2.inRange ∧ c2.encode E = b) ∧
    (∀ i, i < 288 → ∃ e ∈ layout ABI.linux snd_pcm_info.ctype,
      e.2.1 ≤ i ∧ i < e.2.1 + e.2.2) ∧
    (∀ i, i < 376 → ∃ e ∈ layout ABI.linux snd_ctl_card_info.ctype,
      e.2.1 ≤ i ∧ i < e.2.1 + e.2.2) ∧
    (∀ e ∈ layout ABI.linux snd_pcm_sync_id.ctype, e.2 = (0, 16)) := by
  refine ⟨⟨rfl, hs⟩, ?_, ⟨pcm_decode_encode E p hp, pcm_encode_isBytes E p hp⟩,
    ⟨card_decode_encode E c hc, card_encode_isBytes E c hc⟩, ?_, ?_, ?_, ?_, ?_, ?_,
    pcm_covered, card_covered, by decide⟩
  · intro v xs hx
    refine ⟨decodeArray_encodeArray E v.width v.count xs hx, ?_, encodeArray_lt E v.width xs⟩
    show (encodeArray E v.width xs).length = 16
    rw [length_encodeArray, hx.1, v.count_mul_width]
  · intro s2 _ h
    cases s2
    cases s
    simpa [snd_pcm_sync_id.encode] using h
  · intro p2 hp2 h
    rw [← pcm_decode_encode E p2 hp2, h, pcm_decode_encode E p hp]
  · intro c2 hc2 h
    rw [← card_decode_encode E c2 hc2, h, card_decode_encode E c hc]
  · intro b hb
    exact ⟨⟨b⟩, hb, rfl⟩
  · intro b hb
    exact ⟨snd_pcm_info.decode E b, pcm_decode_inRange E b hb, pcm_encode_decode E b hb⟩
  · intro b hb
    exact ⟨snd_ctl_card_info.decode E b, card_decode_inRange E b hb,
      card_encode_decode E b hb⟩

theorem record_roundtrip_witness :
    (snd_pcm_sync_id.mk (List.range 16)).inRange ∧
    (snd_pcm_info.decode .little (List.replicate 288 0xff)).inRange ∧
    (snd_ctl_card_info.decode .little (List.replicate 376 0x80)).inRange ∧
    snd_pcm_info.decode .little
        ((snd_pcm_info.decode .little (List.replicate 288 0xff)).encode .little) =
      snd_pcm_info.decode .little (List.replicate 288 0xff) :=
  ⟨by decide, by decide, by decide,
   (record_roundtrip .little (snd_pcm_sync_id.mk (List.range 16))
     (snd_pcm_info.decode .little (List.replicate 288 0xff))
     (snd_ctl_card_info.decode .little (List.replicate 376 0x80))
     (by decide) (by decide) (by decide)).2.2.1.1⟩

/-- Claim C6 fails: the 288-byte buffer that is zero except for byte 204 set to
1 decodes (little-endian) to a record with every member in range,
`subdevices_count = 0` and `subdevices_avail = 1`. -/
theorem subdevices_invariant_counterexample :
    isBytes (List.replicate 204 0 ++ [1, 0, 0, 0] ++ List.replicate 80 0) 288 ∧
    (snd_pcm_info.decode .little
      (List.replicate 204 0 ++ [1, 0, 0, 0] ++ List.replicate 80 0)).inRange ∧
    (snd_pcm_info.decode .little
      (List.replicate 204 0 ++ [1, 0, 0, 0] ++ List.replicate 80 0)).subdevices_count = 0 ∧
    (snd_pcm_info.decode .little
      (List.replicate 204 0 ++ [1, 0, 0, 0] ++ List.replicate 80 0)).subdevices_avail = 1 ∧
    ¬ (snd_pcm_info.decode .little
      (List.replicate 204 0 ++ [1, 0, 0, 0] ++ List.replicate 80 0)).subdevicesOk := by
  decide

/-- Claim C6, amended: in the record decoded from a 288-byte buffer,
`subdevices_count` and `subdevices_avail` are the unsigned 32-bit values of
bytes 200..203 and 204..207.  The condition `subdevices_avail <=
subdevices_count` is a comparison of those two values; it holds for the
zero-filled record, and the layout does not enforce it: every pair of 32-bit
counts is held by an in-range record. -/
theorem subdevices_counts (E : Endian) (b : List Nat) (hb : isBytes b 288) :
    (snd_pcm_info.decode E b).subdevices_count = fromBytes E (slice b 200 4) ∧
    (snd_pcm_info.decode E b).subdevices_avail = fromBytes E (slice b 204 4) ∧
    (snd_pcm_info.decode E b).subdevices_count < 2 ^ 32 ∧
    (snd_pcm_info.decode E b).subdevices_avail < 2 ^ 32 ∧
    ((snd_pcm_info.decode E b).subdevicesOk ↔
      fromBytes E (slice b 204 4) ≤ fromBytes E (slice b 200 4)) ∧
    (snd_pcm_info.decode E (List.replicate 288 0)).subdevicesOk ∧
    (∀ n a, n < 2 ^ 32 → a < 2 ^ 32 →
      ∃ r : snd_pcm_info, r.inRange ∧ isBytes (r.encode E) 288 ∧
        (snd_pcm_info.decode E (r.encode E)).subdevices_count = n ∧
        (snd_pcm_info.decode E (r.encode E)).subdevices_avail = a) := by
  have hr := pcm_decode_inRange E b hb
  have hn := hr.2.2.2.2.2.2.2.2.2.1
  have ha := hr.2.2.2.2.2.2.2.2.2.2.1
  refine ⟨rfl, rfl, by norm_num at hn ⊢; exact hn, by norm_num at ha ⊢; exact ha, Iff.rfl,
    ?_, ?_⟩
  · cases E <;> decide
  · intro n a hn2 ha2
    have hz := pcm_decode_inRange E (List.replicate 288 0) (by decide)
    obtain ⟨z1, z2, z3, z4, z5, z6, z7, z8, z9, _, _, z12, z13⟩ := hz
    have hin : ({ snd_pcm_info.decode E (List.replicate 288 0) with
        subdevices_count := n, subdevices_avail := a } : snd_pcm_info).inRange :=
      ⟨z1, z2, z3, z4, z5, z6, z7, z8, z9, by norm_num at hn2 ⊢; exact hn2,
        by norm_num at ha2 ⊢; exact ha2, z12, z13⟩
    refine ⟨_, hin, pcm_encode_isBytes E _ hin, ?_, ?_⟩
    · rw [pcm_decode_encode E _ hin]
    · rw [pcm_decode_encode E _ hin]

theorem subdevices_counts_witness :
    isBytes (List.replicate 288 0xff) 288 ∧
    (snd_pcm_info.decode .big (List.replicate 288 0xff)).subdevices_avail < 2 ^ 32 :=
  ⟨by decide,
   (subdevices_counts .big (List.replicate 288 0xff) (by decide)).2.2.2.1⟩

theorem fieldBytes_update (A : ABI) (t : CType) (b : List Nat) (f : String) (bs : List Nat)
    (r : Nat × Nat) (hd : pairwiseDisjoint (layout A t))
    (hb : ∀ e ∈ layout A t, e.2.1 + e.2.2 ≤ b.length)
    (hf : (layout A t).lookup f = some r) (hl : bs.length = r.2) :
    fieldBytes A t (writeField A t b f bs) = Function.update (fieldBytes A t b) f bs := by
  funext g
  rw [fieldBytes_writeField A t b f g bs r hd hb hf hl, Function.update_apply]

/-- Claim C10: in `struct snd_pcm_info` and `struct snd_ctl_card_info` any two
members occupy disjoint byte ranges, so storing bytes into one member leaves
the bytes, and the decoded value, of every other member unchanged (shown for
every member, and spelled out for `device`, `subdevice`, `stream`, `id`,
`reserved`, `pad` and `reserved_`); the members of `union snd_pcm_sync_id` all
occupy bytes 0..15 and so overlap. -/
theorem fields_disjoint_frame (E : Endian) (b2 b3 : List Nat) (h2 : isBytes b2 288)
    (h3 : isBytes b3 376) :
    pairwiseDisjoint (layout ABI.linux snd_pcm_info.ctype) ∧
    pairwiseDisjoint (layout ABI.linux snd_ctl_card_info.ctype) ∧
    (∀ (f : String) (q : Nat × Nat) (bs : List Nat),
      (layout ABI.linux snd_pcm_info.ctype).lookup f = some q → bs.length = q.2 →
      (∀ g, fieldBytes ABI.linux snd_pcm_info.ctype
          (writeField ABI.linux snd_pcm_info.ctype b2 f bs) g =
            if g = f then bs else fieldBytes ABI.linux snd_pcm_info.ctype b2 g) ∧
      snd_pcm_info.decode E (writeField ABI.linux snd_pcm_info.ctype b2 f bs) =
        snd_pcm_info.ofFields E
          (Function.update (fieldBytes ABI.linux snd_pcm_info.ctype b2) f bs)) ∧
    (∀ (f : String) (q : Nat × Nat) (bs : List Nat),
      (layout ABI.linux snd_ctl_card_info.ctype).lookup f = some q → bs.length = q.2 →
      (∀ g, fieldBytes ABI.linux snd_ctl_card_info.ctype
          (writeField ABI.linux snd_ctl_card_info.ctype b3 f bs) g =
            if g = f then bs else fieldBytes ABI.linux snd_ctl_card_info.ctype b3 g) ∧
      snd_ctl_card_info.decode E (writeField ABI.linux snd_ctl_card_info.ctype b3 f bs) =
        snd_ctl_card_info.ofFields E
          (Function.update (fieldBytes ABI.linux snd_ctl_card_info.ctype b3) f bs)) ∧
    (∀ x, x < 2 ^ 32 →
      snd_pcm_info.decode E
          (writeField ABI.linux snd_pcm_info.ctype b2 "device" (toBytes E 4 x)) =
        { snd_pcm_info.decode E b2 with device := x }) ∧
    (∀ x, x < 2 ^ 32 →
      snd_pcm_info.decode E
          (writeField ABI.linux snd_pcm_info.ctype b2 "subdevice" (toBytes E 4 x)) =
        { snd_pcm_info.decode E b2 with subdevice := x }) ∧
    (∀ z, inSigned 4 z →
      snd_pcm_info.decode E
          (writeField ABI.linux snd_pcm_info.ctype b2 "stream" (toBytes E 4 (ofSigned 4 z))) =
        { snd_pcm_info.decode E b2 with stream := z }) ∧
    (∀ bs, isBytes bs 64 →
      snd_pcm_info.decode E (writeField ABI.linux snd_pcm_info.ctype b2 "id" bs) =
        { snd_pcm_info.decode E b2 with id := bs }) ∧
    snd_pcm_info.decode E
        (writeField ABI.linux snd_pcm_info.ctype b2 "reserved" (List.replicate 64 0)) =
      { snd_pcm_info.decode E b2 with reserved := List.replicate 64 0 } ∧
    snd_ctl_card_info.decode E
        (writeField ABI.linux snd_ctl_card_info.ctype b3 "pad" (List.replicate 4 0)) =
      { snd_ctl_card_info.decode E b3 with pad := 0 } ∧
    snd_ctl_card_info.decode E
        (writeField ABI.linux snd_ctl_card_info.ctype b3 "reserved_" (List.replicate 16 0)) =
      { snd_ctl_card_info.decode E b3 with reserved_ := List.replicate 16 0 } ∧
    (∀ e ∈ layout ABI.linux snd_pcm_sync_id.ctype, e.2 = (0, 16)) ∧
    ¬ pairwiseDisjoint (layout ABI.linux snd_pcm_sync_id.ctype) := by
  have hb2 : ∀ e ∈ layout ABI.linux snd_pcm_info.ctype, e.2.1 + e.2.2 ≤ b2.length := by
    rw [h2.1]; exact pcm_bounds
  have hb3 : ∀ e ∈ layout ABI.linux snd_ctl_card_info.ctype, e.2.1 + e.2.2 ≤ b3.length := by
    rw [h3.1]; exact card_bounds
  have up2 : ∀ (f : String) (q : Nat × Nat) (bs : List Nat),
      (layout ABI.linux snd_pcm_info.ctype).lookup f = some q → bs.length = q.2 →
      snd_pcm_info.decode E (writeField ABI.linux snd_pcm_info.ctype b2 f bs) =
        snd_pcm_info.ofFields E
          (Function.update (fieldBytes ABI.linux snd_pcm_info.ctype b2) f bs) := by
    intro f q bs hf hl
    unfold snd_pcm_info.decode
    rw [fieldBytes_update _ _ b2 f bs q pcm_disjoint hb2 hf hl]
  have up3 : ∀ (f : String) (q : Nat × Nat) (bs : List Nat),
      (layout ABI.linux snd_ctl_card_info.ctype).lookup f = some q → bs.length = q.2 →
      snd_ctl_card_info.decode E (writeField ABI.linux snd_ctl_card_info.ctype b3 f bs) =
        snd_ctl_card_info.ofFields E
          (Function.update (fieldBytes ABI.linux snd_ctl_card_info.ctype b3) f bs) := by
    intro f q bs hf hl
    unfold snd_ctl_card_info.decode
    rw [fieldBytes_update _ _ b3 f bs q card_disjoint hb3 hf hl]
  refine ⟨pcm_disjoint, card_disjoint, ?_, ?_, ?_, ?_, ?_, ?_, ?_, ?_, ?_, by decide,
    by decide⟩
  · intro f q bs hf hl
    exact ⟨fun g => fieldBytes_writeField _ _ b2 f g bs q pcm_disjoint hb2 hf hl,
      up2 f q bs hf hl⟩
  · intro f q bs hf hl
    exact ⟨fun g => fieldBytes_writeField _ _ b3 f g bs q card_disjoint hb3 hf hl,
      up3 f q bs hf hl⟩
  · intro x hx
    rw [up2 "device" (0, 4) _ (by decide) (length_toBytes E 4 x)]
    have e : snd_pcm_info.ofFields E
        (Function.update (fieldBytes ABI.linux snd_pcm_info.ctype b2) "device"
          (toBytes E 4 x)) =
        { snd_pcm_info.decode E b2 with device := fromBytes E (toBytes E 4 x) } := rfl
    rw [e, fromBytes_toBytes_of_lt E x (by norm_num at hx ⊢; exact hx)]
  · intro x hx
    rw [up2 "subdevice" (4, 4) _ (by decide) (length_toBytes E 4 x)]
    have e : snd_pcm_info.ofFields E
        (Function.update (fieldBytes ABI.linux snd_pcm_info.ctype b2) "subdevice"
          (toBytes E 4 x)) =
        { snd_pcm_info.decode E b2 with subdevice := fromBytes E (toBytes E 4 x) } := rfl
    rw [e, fromBytes_toBytes_of_lt E x (by norm_num at hx ⊢; exact hx)]
  · intro z hz
    rw [up2 "stream" (8, 4) _ (by decide) (length_toBytes E 4 _)]
    have e : snd_pcm_info.ofFields E
        (Function.update (fieldBytes ABI.linux snd_pcm_info.ctype b2) "stream"
          (toBytes E 4 (ofSigned 4 z))) =
        { snd_pcm_info.decode E b2 with
          stream := toSigned 4 (fromBytes E (toBytes E 4 (ofSigned 4 z))) } := rfl
    rw [e, signed_roundtrip E z hz]
  · intro bs hbs
    rw [up2 "id" (16, 64) _ (by decide) hbs.1]
    rfl
  · rw [up2 "reserved" (224, 64) _ (by decide) (by simp)]
    rfl
  · rw [up3 "pad" (4, 4) _ (by decide) (by simp)]
    have e : snd_ctl_card_info.ofFields E
        (Function.update (fieldBytes ABI.linux snd_ctl_card_info.ctype b3) "pad"
          (List.replicate 4 0)) =
        { snd_ctl_card_info.decode E b3 with
          pad := toSigned 4 (fromBytes E (List.replicate 4 0)) } := rfl
    rw [e]
    have z : toSigned 4 (fromBytes E (List.replicate 4 0)) = 0 := by cases E <;> decide
    rw [z]
  · rw [up3 "reserved_" (152, 16) _ (by decide) (by simp)]
    rfl

theorem fields_disjoint_frame_witness :
    isBytes (List.replicate 288 0x11) 288 ∧ isBytes (List.replicate 376 0x22) 376 ∧
    snd_pcm_info.decode .little
        (writeField ABI.linux snd_pcm_info.ctype (List.replicate 288 0x11) "reserved"
          (List.replicate 64 0)) =
      { snd_pcm_info.decode .little (List.replicate 288 0x11) with
        reserved := List.replicate 64 0 } :=
  ⟨by decide, by decide,
   (fields_disjoint_frame .little (List.replicate 288 0x11) (List.replicate 376 0x22)
     (by decide) (by decide)).2.2.2.2.2.2.2.2.1⟩

end Asound
